import Mathlib

/-!
Verification of the intrusive doubly-linked list (`intrusive::list`,
`intrusive::list_element_base`) against its specification.

The C++ code is shallowly embedded: a link node (`list_element_base`) is a
pair of optional pointers, the heap is a map from node addresses (`Nat`) to
nodes, and every operation is translated statement by statement from the
source, preserving the exact order of pointer reads and writes (including the
reference-aliasing behaviour of `triswap`).  Tags and element types are
erased: an element is identified with the address of its embedded link node,
which is exactly how the code itself treats elements (`to_base`/`from_base`
are type casts with no runtime content).
-/

namespace Intrusive

/-- A link node: the `prev`/`next` pointer pair of `list_element_base`.
A null pointer is `none`; a pointer to the node at address `a` is `some a`. -/
structure Node where
  prev : Option Nat
  next : Option Nat
deriving Repr, DecidableEq

/-- The heap: a map from node addresses to link nodes. -/
abbrev Heap := Nat → Node

/-- Write the `next` field of the node at address `a`. -/
def setNext (h : Heap) (a : Nat) (v : Option Nat) : Heap :=
  fun x => if x = a then ⟨(h x).prev, v⟩ else h x

/-- Write the `prev` field of the node at address `a`. -/
def setPrev (h : Heap) (a : Nat) (v : Option Nat) : Heap :=
  fun x => if x = a then ⟨v, (h x).next⟩ else h x

/-- The four `assert`s guarding `list_element_base::unlink`. -/
def unlinkAsserts (h : Heap) (n : Nat) : Prop :=
  (h n).prev ≠ none ∧ (h n).next ≠ none ∧ (h n).prev ≠ some n ∧ (h n).next ≠ some n

instance (h : Heap) (n : Nat) : Decidable (unlinkAsserts h n) :=
  inferInstanceAs (Decidable (_ ∧ _ ∧ _ ∧ _))

/-- `list_element_base::unlink`:
`prev->next = next; next->prev = prev; prev = nullptr; next = nullptr;`.
When `prev` or `next` is null the C++ dereferences a null pointer (undefined
behaviour, caught by the asserts in debug builds); that case is modelled as
leaving the heap unchanged.  The reads of `this->prev`/`this->next` are
hoisted before the writes, which is faithful whenever the asserts hold
(`prev != this` and `next != this`, so the first write cannot alias `this`). -/
def unlink (h : Heap) (n : Nat) : Heap :=
  match (h n).prev, (h n).next with
  | some p, some q =>
      setNext (setPrev (setPrev (setNext h p (some q)) q (some p)) n none) n none
  | _, _ => h

/-- `list_element_base::try_unlink`: `if (prev) unlink();`.  The assert
`(prev == nullptr) == (next == nullptr)` is the claim-level invariant and is
not needed to define the effect. -/
def tryUnlink (h : Heap) (n : Nat) : Heap :=
  match (h n).prev with
  | some _ => unlink h n
  | none => h

/-- The loop of `list_element_base::clear`:
`while (p != this) { auto* n = p->next; p->prev = nullptr; p->next = nullptr; p = n; }`.
The loop is given explicit fuel; on every well-formed ring it terminates
within `fuel` iterations for any sufficiently large fuel, and the theorems
below quantify over such fuel.  A null `p->next` (undefined behaviour in the
source) stops the loop after nulling `p`. -/
def clearLoop (self : Nat) : Nat → Heap → Nat → Heap
  | 0, h, _ => h
  | fuel + 1, h, p =>
      if p = self then h
      else
        match (h p).next with
        | none => setNext (setPrev h p none) p none
        | some n' => clearLoop self fuel (setNext (setPrev h p none) p none) n'

/-- `list_element_base::clear`: run the loop from `next`, then
`prev = this; next = this;`.  A null `next` (undefined behaviour in the
source: the loop would dereference null) skips the loop. -/
def clear (fuel : Nat) (h : Heap) (self : Nat) : Heap :=
  match (h self).next with
  | none => setNext (setPrev h self (some self)) self (some self)
  | some p =>
      setNext (setPrev (clearLoop self fuel h p) self (some self)) self (some self)

/-- `list_element_base::insert(obj)`:
`obj.next = this; obj.prev = prev; prev->next = &obj; prev = &obj;`.
A null `this->prev` (undefined behaviour at `prev->next`) leaves the heap as
after the first two writes. -/
def insert (h : Heap) (self obj : Nat) : Heap :=
  let h1 := setNext h obj (some self)
  let h2 := setPrev h1 obj ((h1 self).prev)
  match (h2 self).prev with
  | none => h2
  | some p => setPrev (setNext h2 p (some obj)) self (some obj)

/-- `triswap(a, b, c)` applied to the `next` fields of nodes `a`, `b`, `c`:
`copy = a; a = b; b = c; c = copy;` with C++ reference semantics — the three
locations are bound up front and may alias each other, and each assignment
reads the location's current value. -/
def triswapNext (h : Heap) (a b c : Nat) : Heap :=
  let copy := (h a).next
  let h1 := setNext h a ((h b).next)
  let h2 := setNext h1 b ((h1 c).next)
  setNext h2 c copy

/-- `triswap(a, b, c)` applied to the `prev` fields of nodes `a`, `b`, `c`. -/
def triswapPrev (h : Heap) (a b c : Nat) : Heap :=
  let copy := (h a).prev
  let h1 := setPrev h a ((h b).prev)
  let h2 := setPrev h1 b ((h1 c).prev)
  setPrev h2 c copy

/-- `list_element_base::splice(first, last)` invoked on node `self`:
`if (&first == &last) return;`
`triswap(prev->next, first.prev->next, last.prev->next);`
`triswap(prev, last.prev, first.prev);`.
The three lvalues of the first `triswap` are the `next` fields of
`self->prev`, `first.prev` and `last.prev`, all read in the initial heap; the
second `triswap` works on the `prev` fields of `self`, `last` and `first`.
A null `prev` on any of the three nodes is undefined behaviour in the source
and is modelled as leaving the heap unchanged. -/
def splice (h : Heap) (self f l : Nat) : Heap :=
  if f = l then h
  else
    match (h self).prev, (h f).prev, (h l).prev with
    | some a, some b, some c => triswapPrev (triswapNext h a b c) self l f
    | _, _, _ => h

/-! ### The typed layer

`list_element`, `list_iterator` and `list` add no link state of their own:
an iterator holds one `list_element_base*` and the list owns the single
sentinel node `fake`.  A list is therefore modelled by the address of its
sentinel, and an iterator by the address it holds. -/

/-- `list_element::~list_element()`: `try_unlink();` (the auto-unlink hook). -/
def destroyElement (h : Heap) (e : Nat) : Heap :=
  tryUnlink h e

/-- `list::list()`: `fake{&fake, &fake}` — the freshly constructed sentinel
is a singleton ring, whatever the address previously held. -/
def initList (h : Heap) (fk : Nat) : Heap :=
  fun x => if x = fk then ⟨some fk, some fk⟩ else h x

/-- `list::empty()`: `fake.prev == &fake`. -/
def emptyList (h : Heap) (fk : Nat) : Bool :=
  (h fk).prev == some fk

/-- `list::push_back(obj)`: `fake.insert(to_base(obj))`. -/
def pushBack (h : Heap) (fk obj : Nat) : Heap :=
  insert h fk obj

/-- `list::push_front(obj)`: `fake.next->insert(to_base(obj))`. -/
def pushFront (h : Heap) (fk obj : Nat) : Heap :=
  match (h fk).next with
  | some n => insert h n obj
  | none => h

/-- `list::pop_back()`: `fake.prev->unlink()`. -/
def popBack (h : Heap) (fk : Nat) : Heap :=
  match (h fk).prev with
  | some p => unlink h p
  | none => h

/-- `list::pop_front()`: `fake.next->unlink()`. -/
def popFront (h : Heap) (fk : Nat) : Heap :=
  match (h fk).next with
  | some n => unlink h n
  | none => h

/-- `list::front()`: the element `from_base(*fake.next)`, identified by its
node address. -/
def front (h : Heap) (fk : Nat) : Option Nat :=
  (h fk).next

/-- `list::back()`: the element `from_base(*fake.prev)`. -/
def back (h : Heap) (fk : Nat) : Option Nat :=
  (h fk).prev

/-- `list::begin()`: `iterator(fake.next)`. -/
def beginIt (h : Heap) (fk : Nat) : Option Nat :=
  (h fk).next

/-- `list::end()`: `iterator(&fake)`. -/
def endIt (fk : Nat) : Option Nat :=
  some fk

/-- `list::insert(pos, obj)`: `pos.current->insert(base); return iterator(&base);`. -/
def listInsert (h : Heap) (pos obj : Nat) : Heap × Nat :=
  (insert h pos obj, obj)

/-- `list::erase(pos)`: `next = pos.current->next; pos.current->unlink();
return iterator(next);` — the successor is read before the unlink. -/
def erase (h : Heap) (pos : Nat) : Heap × Option Nat :=
  (unlink h pos, (h pos).next)

/-- `list::splice(pos, otherList, first, last)`:
`pos.current->splice(*first.current, *last.current);` — note that neither
`this` (`thisFk`) nor the `otherList` argument (`otherFk`) is read. -/
def listSplice (h : Heap) (thisFk pos otherFk f l : Nat) : Heap :=
  splice h pos f l

/-- `list::list(list&& other)`: delegate to `list()`, then
`splice(end(), other, other.begin(), other.end())`. -/
def moveConstruct (h : Heap) (other dst : Nat) : Heap :=
  let h0 := initList h dst
  match (h0 other).next with
  | some b => splice h0 dst b other
  | none => h0

/-- `list::operator=(list&& other)`: `fake.clear();` then
`splice(end(), other, other.begin(), other.end())` — `other.begin()` is read
after the clear, which is what makes self-move-assignment empty the list. -/
def moveAssign (fuel : Nat) (h : Heap) (thisFk other : Nat) : Heap :=
  let h1 := clear fuel h thisFk
  match (h1 other).next with
  | some b => splice h1 thisFk b other
  | none => h1

/-- `list::clear()` (and `list::~list()`): `fake.clear()`. -/
def listClear (fuel : Nat) (h : Heap) (fk : Nat) : Heap :=
  clear fuel h fk

/-! ### Rings

A ring is the circular structure the sentinel and the linked elements form.
`isRing h xs` states that the distinct addresses in `xs` form one circular
doubly-linked ring, in `next` order. -/

/-- Node `b` immediately follows node `a`: `a.next == &b` and `b.prev == &a`. -/
abbrev adj (h : Heap) (a b : Nat) : Prop :=
  (h a).next = some b ∧ (h b).prev = some a

instance (h : Heap) : DecidableRel (adj h) :=
  fun a b => inferInstanceAs (Decidable ((h a).next = some b ∧ (h b).prev = some a))

/-- Every pair of consecutive addresses in the list is adjacent in the heap. -/
abbrev chain (h : Heap) (xs : List Nat) : Prop :=
  List.Chain' (adj h) xs

/-- A structurally recursive decision procedure for `chain`, so that `decide`
can evaluate ring predicates on concrete heaps. -/
def chainDec (h : Heap) : (xs : List Nat) → Decidable (List.Chain' (adj h) xs)
  | [] => isTrue List.chain'_nil
  | [a] => isTrue (List.chain'_singleton a)
  | a :: b :: rest =>
    haveI : Decidable (List.Chain' (adj h) (b :: rest)) := chainDec h (b :: rest)
    decidable_of_iff (adj h a b ∧ List.Chain' (adj h) (b :: rest)) List.chain'_cons.symm

instance (h : Heap) (xs : List Nat) : Decidable (List.Chain' (adj h) xs) :=
  chainDec h xs

/-- `xs` lists a circular ring of the heap in `next` order: the addresses are
distinct and consecutive ones (cyclically) are adjacent. -/
def isRing (h : Heap) (xs : List Nat) : Prop :=
  xs ≠ [] ∧ xs.Nodup ∧ chain h (xs ++ [xs.headI])

instance (h : Heap) (xs : List Nat) : Decidable (isRing h xs) :=
  inferInstanceAs (Decidable (_ ∧ _ ∧ _))

/-- The local two-state invariant of the spec: a node is unlinked (both
pointers null) or linked with symmetric neighbour links. -/
def nodeOk (h : Heap) (n : Nat) : Prop :=
  ((h n).prev = none ∧ (h n).next = none) ∨
    (∃ p q, (h n).prev = some p ∧ (h n).next = some q ∧
      (h p).next = some n ∧ (h q).prev = some n)

/-- Every node of the heap satisfies the two-state invariant. -/
def Consistent (h : Heap) : Prop :=
  ∀ n, nodeOk h n

/-! ### Basic lemmas about the heap writes -/

theorem setNext_prev (h : Heap) (a : Nat) (v : Option Nat) (x : Nat) :
    ((setNext h a v) x).prev = (h x).prev := by
  simp only [setNext]; split <;> rfl

theorem setPrev_next (h : Heap) (a : Nat) (v : Option Nat) (x : Nat) :
    ((setPrev h a v) x).next = (h x).next := by
  simp only [setPrev]; split <;> rfl

theorem setNext_apply_self (h : Heap) (a : Nat) (v : Option Nat) :
    (setNext h a v) a = ⟨(h a).prev, v⟩ := by
  simp [setNext]

theorem setPrev_apply_self (h : Heap) (a : Nat) (v : Option Nat) :
    (setPrev h a v) a = ⟨v, (h a).next⟩ := by
  simp [setPrev]

theorem setNext_apply_other (h : Heap) (a : Nat) (v : Option Nat) (x : Nat) (hx : x ≠ a) :
    (setNext h a v) x = h x := by
  simp [setNext, hx]

theorem setPrev_apply_other (h : Heap) (a : Nat) (v : Option Nat) (x : Nat) (hx : x ≠ a) :
    (setPrev h a v) x = h x := by
  simp [setPrev, hx]

/-! ### List helpers -/

theorem headI_append_of_ne_nil (xs ys : List Nat) (hxs : xs ≠ []) :
    (xs ++ ys).headI = xs.headI := by
  cases xs with
  | nil => exact absurd rfl hxs
  | cons a t => rfl

theorem getLast_not_mem_dropLast (xs : List Nat) (hne : xs ≠ []) (hnd : xs.Nodup) :
    xs.getLast hne ∉ xs.dropLast := by
  intro hmem
  have hsplit : xs.dropLast ++ [xs.getLast hne] = xs := List.dropLast_append_getLast hne
  rw [← hsplit] at hnd
  rcases List.nodup_append.mp hnd with ⟨-, -, hdisj⟩
  exact hdisj hmem (List.mem_singleton_self _)

theorem headI_not_mem_tail (xs : List Nat) (hnd : xs.Nodup) (hne : xs ≠ []) :
    xs.headI ∉ xs.tail := by
  cases xs with
  | nil => exact absurd rfl hne
  | cons a t =>
    simp only [List.headI, List.tail]
    exact (List.nodup_cons.mp hnd).1

/-! ### Chain and ring lemmas -/

theorem chain_append (h : Heap) (xs ys : List Nat) :
    chain h (xs ++ ys) ↔
      chain h xs ∧ chain h ys ∧ ∀ x ∈ xs.getLast?, ∀ y ∈ ys.head?, adj h x y :=
  List.chain'_append

/-- Transfer a chain between heaps that agree on the fields the chain reads:
the `next` of every node but the last and the `prev` of every node but the
first. -/
theorem chain_transfer {h h' : Heap} :
    ∀ {xs : List Nat},
      (∀ a ∈ xs.dropLast, (h' a).next = (h a).next) →
      (∀ b ∈ xs.tail, (h' b).prev = (h b).prev) →
      chain h xs → chain h' xs := by
  intro xs
  induction xs with
  | nil => intro _ _ _; exact List.chain'_nil
  | cons a rest ih =>
    cases rest with
    | nil => intro _ _ _; exact List.chain'_singleton a
    | cons b rest' =>
      intro hn hp hc
      have hc' := List.chain'_cons.mp hc
      refine List.chain'_cons.mpr ⟨⟨?_, ?_⟩, ?_⟩
      · rw [hn a (by simp)]; exact hc'.1.1
      · rw [hp b (by simp)]; exact hc'.1.2
      · refine ih (fun x hx => hn x ?_) (fun x hx => hp x ?_) hc'.2
        · rw [List.dropLast_cons₂]; exact List.mem_cons_of_mem _ hx
        · exact List.mem_cons_of_mem _ (by simpa using hx)

theorem headI_mem_of_ne_nil (xs : List Nat) (hne : xs ≠ []) : xs.headI ∈ xs := by
  cases xs with
  | nil => exact absurd rfl hne
  | cons a t => exact List.mem_cons_self a t

/-- The `next` pointer of the head of a ring points at the following node. -/
theorem ring_next_head (h : Heap) (a : Nat) (rest : List Nat) (hr : isRing h (a :: rest)) :
    (h a).next = some ((rest ++ [a]).headI) := by
  rcases hr with ⟨-, -, hc⟩
  have hc2 : chain h (a :: (rest ++ [a])) := by simpa using hc
  cases rest with
  | nil => exact (List.chain'_cons.mp hc2).1.1
  | cons b rest' => exact (List.chain'_cons.mp hc2).1.1

/-- The `prev` pointer of the head of a ring points at the last node. -/
theorem ring_prev_head (h : Heap) (a : Nat) (rest : List Nat) (hr : isRing h (a :: rest)) :
    (h a).prev = some ((a :: rest).getLast (List.cons_ne_nil a rest)) := by
  rcases hr with ⟨-, -, hc⟩
  rcases (chain_append h (a :: rest) [a]).mp hc with ⟨-, -, hb⟩
  have := hb _ (by rw [List.getLast?_eq_getLast_of_ne_nil (List.cons_ne_nil a rest)]; rfl)
    a (by rfl)
  exact this.2

/-- A ring can be read starting from its second node. -/
theorem isRing_rotate_one (h : Heap) (a : Nat) (rest : List Nat)
    (hr : isRing h (a :: rest)) : isRing h (rest ++ [a]) := by
  rcases hr with ⟨-, hnd, hc⟩
  have hnd' : (rest ++ [a]).Nodup := by
    rcases List.nodup_cons.mp hnd with ⟨hna, hnr⟩
    exact hnr.append (List.nodup_singleton a)
      (fun x hx hxa => hna (by rwa [List.mem_singleton.mp hxa] at hx))
  refine ⟨by simp, hnd', ?_⟩
  have hc2 : chain h (a :: (rest ++ [a])) := by simpa using hc
  cases rest with
  | nil => simpa using hc2
  | cons b rest' =>
    have hc' := List.chain'_cons.mp hc2
    have hh : ((b :: rest' ++ [a]) ++ [(b :: rest' ++ [a]).headI]) =
        (b :: rest' ++ [a]) ++ [b] := by simp
    rw [hh]
    refine (chain_append h (b :: rest' ++ [a]) [b]).mpr
      ⟨by simpa using hc'.2, List.chain'_singleton b, ?_⟩
    intro x hx y hy
    have hx' : x = a := by
      have he : b :: rest' ++ [a] = (b :: rest') ++ [a] := by simp
      rw [he, List.getLast?_concat] at hx
      exact (by simpa using hx : a = x).symm
    have hy' : y = b := by
      have := (by simpa using hy : b = y)
      exact this.symm
    rw [hx', hy']
    exact hc'.1

/-- A ring can be read starting from any of its nodes. -/
theorem isRing_rotate (h : Heap) :
    ∀ (u : List Nat) (n : Nat) (v : List Nat),
      isRing h (u ++ n :: v) → isRing h (n :: v ++ u) := by
  intro u
  induction u with
  | nil => intro n v hr; simpa using hr
  | cons a u' ih =>
    intro n v hr
    have h1 : isRing h ((u' ++ n :: v) ++ [a]) :=
      isRing_rotate_one h a _ (by simpa using hr)
    have h2 : isRing h (u' ++ n :: (v ++ [a])) := by
      have : (u' ++ n :: v) ++ [a] = u' ++ n :: (v ++ [a]) := by simp
      rwa [this] at h1
    have h3 := ih n (v ++ [a]) h2
    have : n :: (v ++ [a]) ++ u' = n :: v ++ a :: u' := by simp
    rwa [this] at h3

/-- Rings only read the fields of their own nodes: two heaps agreeing there
carry the same rings. -/
theorem isRing_frame {h h' : Heap} {xs : List Nat}
    (hagree : ∀ n ∈ xs, h' n = h n) : isRing h xs → isRing h' xs := by
  rintro ⟨hne, hnd, hc⟩
  refine ⟨hne, hnd, ?_⟩
  refine chain_transfer (fun a ha => ?_) (fun b hb => ?_) hc
  · rw [List.dropLast_concat] at ha
    rw [hagree a ha]
  · have hb' : b ∈ xs ++ [xs.headI] := List.mem_of_mem_tail hb
    rcases List.mem_append.mp hb' with hb1 | hb1
    · rw [hagree b hb1]
    · rw [hagree b (by rw [List.mem_singleton.mp hb1]; exact headI_mem_of_ne_nil xs hne)]

/-! ### Explicit forms of the pointer operations -/

/-- Explicit form of `unlink` on a linked node whose neighbours are not the
node itself (the situation the asserts admit). -/
theorem unlink_eq (h : Heap) (n p q : Nat)
    (hp : (h n).prev = some p) (hq : (h n).next = some q)
    (hpn : p ≠ n) (hqn : q ≠ n) :
    unlink h n = fun x =>
      if x = n then ⟨none, none⟩
      else ⟨if x = q then some p else (h x).prev,
            if x = p then some q else (h x).next⟩ := by
  funext x
  simp only [unlink, hp, hq]
  by_cases hxn : x = n
  · subst hxn; simp [setNext, setPrev, Ne.symm hpn, Ne.symm hqn]
  · by_cases hxq : x = q <;> by_cases hxp : x = p <;>
      simp_all [setNext, setPrev]

/-- Explicit form of `insert` below a node with a non-null `prev`. -/
theorem insert_eq (h : Heap) (self obj p : Nat)
    (hp : (h self).prev = some p) (hos : obj ≠ self) (hop : obj ≠ p) :
    insert h self obj = fun x =>
      if x = obj then ⟨some p, some self⟩
      else ⟨if x = self then some obj else (h x).prev,
            if x = p then some obj else (h x).next⟩ := by
  funext x
  have h1p : (setNext h obj (some self) self).prev = some p := by
    rw [setNext_prev]; exact hp
  simp only [insert, h1p, setPrev_apply_other _ _ _ _ (Ne.symm hos), h1p]
  by_cases hxo : x = obj
  · subst hxo; simp [setNext, setPrev, hos, hop]
  · by_cases hxs : x = self <;> by_cases hxp : x = p <;>
      simp_all [setNext, setPrev]

/-- Explicit form of the first `triswap` of `splice`: rotate the `next`
fields of three pairwise distinct nodes. -/
theorem triswapNext_eq (h : Heap) (a b c : Nat) (hab : a ≠ b) (hac : a ≠ c) (hbc : b ≠ c) :
    triswapNext h a b c = fun x =>
      ⟨(h x).prev,
       if x = a then (h b).next else if x = b then (h c).next
         else if x = c then (h a).next else (h x).next⟩ := by
  have hba := Ne.symm hab
  have hca := Ne.symm hac
  have hcb := Ne.symm hbc
  funext x
  simp only [triswapNext]
  by_cases hxa : x = a <;> by_cases hxb : x = b <;> by_cases hxc : x = c <;>
    simp_all [setNext]

/-- Explicit form of the second `triswap` of `splice`: rotate the `prev`
fields of three pairwise distinct nodes. -/
theorem triswapPrev_eq (h : Heap) (a b c : Nat) (hab : a ≠ b) (hac : a ≠ c) (hbc : b ≠ c) :
    triswapPrev h a b c = fun x =>
      ⟨if x = a then (h b).prev else if x = b then (h c).prev
         else if x = c then (h a).prev else (h x).prev,
       (h x).next⟩ := by
  have hba := Ne.symm hab
  have hca := Ne.symm hac
  have hcb := Ne.symm hbc
  funext x
  simp only [triswapPrev]
  by_cases hxa : x = a <;> by_cases hxb : x = b <;> by_cases hxc : x = c <;>
    simp_all [setPrev]

/-- Explicit form of `splice` when the two location triples are each pairwise
distinct (`P`, `A`, `E` are the predecessors of `self`, `first`, `last`). -/
theorem splice_eq (h : Heap) (self f l P A E : Nat)
    (hP : (h self).prev = some P) (hA : (h f).prev = some A) (hE : (h l).prev = some E)
    (hfl : f ≠ l) (hfs : f ≠ self) (hls : l ≠ self)
    (hPA : P ≠ A) (hPE : P ≠ E) (hAE : A ≠ E) :
    splice h self f l = fun x =>
      ⟨if x = self then some E else if x = l then some A else if x = f then some P
         else (h x).prev,
       if x = P then (h A).next else if x = A then (h E).next else if x = E then (h P).next
         else (h x).next⟩ := by
  have hNeq := triswapNext_eq h P A E hPA hPE hAE
  simp only [splice, hP, hA, hE, if_neg hfl, hNeq]
  rw [triswapPrev_eq _ self l f (Ne.symm hls) (Ne.symm hfs) (Ne.symm hfl)]
  funext x
  by_cases hxs : x = self <;> by_cases hxl : x = l <;> by_cases hxf : x = f <;>
    simp_all [hE, hA, hP]

/-! ### Ring-level effects of unlink and insert -/

theorem ring_chain_rest (h : Heap) (a : Nat) (rest : List Nat)
    (hr : isRing h (a :: rest)) : chain h (rest ++ [a]) := by
  rcases hr with ⟨-, -, hc⟩
  have hc2 : chain h (a :: (rest ++ [a])) := by simpa using hc
  exact (List.chain'_cons'.mp hc2).2

/-- Effect of `unlink` on the head of a ring of size at least two: the node
leaves the ring unlinked, the rest of the ring stays a ring, and no link
field outside the node and its two neighbours changes. -/
theorem unlink_ring (h : Heap) (e : Nat) (rest : List Nat)
    (hr : isRing h (e :: rest)) (hrest : rest ≠ []) :
    isRing (unlink h e) rest ∧
      (unlink h e) e = ⟨none, none⟩ ∧
      ∀ n, n ≠ e → n ≠ rest.getLast hrest → n ≠ rest.headI → (unlink h e) n = h n := by
  obtain ⟨-, hnd, -⟩ := id hr
  obtain ⟨hne, hnr⟩ := List.nodup_cons.mp hnd
  have hp : (h e).prev = some (rest.getLast hrest) := by
    have h0 := ring_prev_head h e rest hr
    rwa [List.getLast_cons hrest] at h0
  have hq : (h e).next = some rest.headI := by
    have h0 := ring_next_head h e rest hr
    rwa [headI_append_of_ne_nil rest [e] hrest] at h0
  have hpmem : rest.getLast hrest ∈ rest := List.getLast_mem hrest
  have hqmem : rest.headI ∈ rest := headI_mem_of_ne_nil rest hrest
  have hpe : rest.getLast hrest ≠ e := fun hc => hne (hc ▸ hpmem)
  have hqe : rest.headI ≠ e := fun hc => hne (hc ▸ hqmem)
  have heq := unlink_eq h e (rest.getLast hrest) rest.headI hp hq hpe hqe
  refine ⟨?_, by simp [heq], ?_⟩
  · refine ⟨hrest, hnr, ?_⟩
    have hchr : chain h rest := by
      have h0 := ring_chain_rest h e rest hr
      exact ((chain_append h rest [e]).mp h0).1
    have hch' : chain (unlink h e) rest := by
      refine chain_transfer (fun a ha => ?_) (fun b hb => ?_) hchr
      · have hae : a ≠ e := fun hc => hne (hc ▸ List.dropLast_subset _ ha)
        have hap : a ≠ rest.getLast hrest := by
          intro hc; exact getLast_not_mem_dropLast rest hrest hnr (hc ▸ ha)
        simp [heq, hae, hap]
      · have hbe : b ≠ e := fun hc => hne (hc ▸ List.mem_of_mem_tail hb)
        have hbq : b ≠ rest.headI := by
          intro hc; exact headI_not_mem_tail rest hnr hrest (hc ▸ hb)
        simp [heq, hbe, hbq]
    refine (chain_append _ rest [rest.headI]).mpr ⟨hch', List.chain'_singleton _, ?_⟩
    intro x hx y hy
    have hx' : x = rest.getLast hrest := by
      rw [List.getLast?_eq_getLast_of_ne_nil hrest] at hx
      exact (by simpa using hx : rest.getLast hrest = x).symm
    have hy' : y = rest.headI := by
      exact (by simpa using hy : rest.headI = y).symm
    subst hx'; subst hy'
    constructor
    · simp [heq, hpe]
    · simp [heq, hqe]
  · intro n h1 h2 h3
    simp [heq, h1, h2, h3]

/-- Effect of `insert` below the head of a ring: the new node becomes the
last node of the ring (immediately before the head), and no link field
outside the new node, the head and the head's old predecessor changes. -/
theorem insert_ring (h : Heap) (pos obj : Nat) (rest : List Nat)
    (hr : isRing h (pos :: rest)) (hobj : obj ∉ pos :: rest) :
    isRing (insert h pos obj) (pos :: (rest ++ [obj])) ∧
      ∀ n, n ≠ obj → n ≠ pos →
        n ≠ (pos :: rest).getLast (List.cons_ne_nil pos rest) → (insert h pos obj) n = h n := by
  obtain ⟨-, hnd, -⟩ := id hr
  have hP : (h pos).prev = some ((pos :: rest).getLast (List.cons_ne_nil pos rest)) :=
    ring_prev_head h pos rest hr
  have hPmem : (pos :: rest).getLast (List.cons_ne_nil pos rest) ∈ pos :: rest :=
    List.getLast_mem _
  have hos : obj ≠ pos := fun hc => hobj (hc ▸ List.mem_cons_self pos rest)
  have hop : obj ≠ (pos :: rest).getLast (List.cons_ne_nil pos rest) :=
    fun hc => hobj (hc ▸ hPmem)
  have heq := insert_eq h pos obj ((pos :: rest).getLast (List.cons_ne_nil pos rest)) hP hos hop
  constructor
  · refine ⟨List.cons_ne_nil _ _, ?_, ?_⟩
    · rw [List.nodup_cons]
      refine ⟨?_, ?_⟩
      · intro hmem
        rcases List.mem_append.mp hmem with hm | hm
        · exact (List.nodup_cons.mp hnd).1 hm
        · exact hos (List.mem_singleton.mp hm).symm
      · refine (List.nodup_cons.mp hnd).2.append (List.nodup_singleton obj) ?_
        intro x hx hxo
        exact hobj (by rw [List.mem_singleton.mp hxo] at hx; exact List.mem_cons_of_mem _ hx)
    · have hgoal_eq : (pos :: (rest ++ [obj])) ++ [(pos :: (rest ++ [obj])).headI] =
          (pos :: rest) ++ [obj, pos] := by simp
      rw [hgoal_eq]
      have hch0 : chain h (pos :: rest) := by
        obtain ⟨-, -, hc⟩ := id hr
        exact ((chain_append h (pos :: rest) [pos]).mp hc).1
      have hch' : chain (insert h pos obj) (pos :: rest) := by
        refine chain_transfer (fun a ha => ?_) (fun b hb => ?_) hch0
        · have hao : a ≠ obj := fun hc => hobj (hc ▸ List.dropLast_subset _ ha)
          have haP : a ≠ (pos :: rest).getLast (List.cons_ne_nil pos rest) := by
            intro hc
            exact getLast_not_mem_dropLast (pos :: rest) (List.cons_ne_nil pos rest) hnd
              (hc ▸ ha)
          simp [heq, hao, haP]
        · have hbo : b ≠ obj := fun hc => hobj (hc ▸ List.mem_of_mem_tail hb)
          have hbp : b ≠ pos := by
            intro hc
            exact headI_not_mem_tail (pos :: rest) hnd (List.cons_ne_nil pos rest) (hc ▸ hb)
          simp [heq, hbo, hbp]
      refine (chain_append _ (pos :: rest) [obj, pos]).mpr
        ⟨hch', ?_, ?_⟩
      · refine List.chain'_pair.mpr ?_
        constructor
        · simp [heq]
        · simp [heq, Ne.symm hos]
      · intro x hx y hy
        have hx' : x = (pos :: rest).getLast (List.cons_ne_nil pos rest) := by
          rw [List.getLast?_eq_getLast_of_ne_nil (List.cons_ne_nil pos rest)] at hx
          exact (by simpa using hx : (pos :: rest).getLast (List.cons_ne_nil pos rest) = x).symm
        have hy' : y = obj := by
          exact (by simpa using hy : obj = y).symm
        subst hx'; subst hy'
        constructor
        · simp [heq, Ne.symm hop]
        · simp [heq]
  · intro n h1 h2 h3
    simp [heq, h1, h2, h3]

/-! ### A ring determines the fields of its members -/

theorem node_eq_of_parts (a b : Node) (h1 : a.prev = b.prev) (h2 : a.next = b.next) :
    a = b := by
  cases a; cases b; simp_all

/-- Two heaps carrying the same ring agree on every member of the ring. -/
theorem ring_mem_eq (h1 h2 : Heap) (xs : List Nat)
    (hr1 : isRing h1 xs) (hr2 : isRing h2 xs) (n : Nat) (hn : n ∈ xs) :
    h1 n = h2 n := by
  obtain ⟨u, v, rfl⟩ := List.append_of_mem hn
  have hrot1 := isRing_rotate h1 u n v hr1
  have hrot2 := isRing_rotate h2 u n v hr2
  refine node_eq_of_parts _ _ ?_ ?_
  · rw [ring_prev_head h1 n (v ++ u) hrot1, ring_prev_head h2 n (v ++ u) hrot2]
  · rw [ring_next_head h1 n (v ++ u) hrot1, ring_next_head h2 n (v ++ u) hrot2]

/-- Two heaps carrying the same two rings and agreeing outside them are
equal. -/
theorem heap_ext_of_rings (h1 h2 : Heap) (xs ys : List Nat)
    (hx1 : isRing h1 xs) (hx2 : isRing h2 xs)
    (hy1 : isRing h1 ys) (hy2 : isRing h2 ys)
    (hout : ∀ n, n ∉ xs → n ∉ ys → h1 n = h2 n) : h1 = h2 := by
  funext n
  by_cases hnx : n ∈ xs
  · exact ring_mem_eq h1 h2 xs hx1 hx2 n hnx
  · by_cases hny : n ∈ ys
    · exact ring_mem_eq h1 h2 ys hy1 hy2 n hny
    · exact hout n hnx hny

/-- The element-by-element program the specification measures `splice`
against: erase each node of the range from its list (`list::erase` performs
`unlink`) and insert it immediately before `pos` (`list::insert` performs
`pos.insert`), in range order. -/
def eraseInsertEach (h : Heap) (pos : Nat) (seg : List Nat) : Heap :=
  seg.foldl (fun hh e => insert (unlink hh e) pos e) h

/-- Erasing the range from ring `seg ++ D` element by element and inserting
each before `pos` in the disjoint ring `pos :: C` leaves the source ring `D`
and grows the destination ring to `pos :: (C ++ seg)`, touching nothing
outside the two rings. -/
theorem eraseInsertEach_two_ring (pos : Nat) :
    ∀ (seg : List Nat) (h : Heap) (C D : List Nat),
      isRing h (seg ++ D) → isRing h (pos :: C) →
      List.Disjoint (seg ++ D) (pos :: C) → D ≠ [] →
      isRing (eraseInsertEach h pos seg) D ∧
        isRing (eraseInsertEach h pos seg) (pos :: (C ++ seg)) ∧
        ∀ n, n ∉ seg ++ D → n ∉ pos :: C → (eraseInsertEach h pos seg) n = h n := by
  intro seg
  induction seg with
  | nil =>
    intro h C D hx hy hdisj hD
    exact ⟨by simpa using hx, by simpa using hy, fun n _ _ => rfl⟩
  | cons e seg' ih =>
    intro h C D hx hy hdisj hD
    have hxe : isRing h (e :: (seg' ++ D)) := by simpa using hx
    have hrest_ne : seg' ++ D ≠ [] := by
      intro hc
      exact hD (List.append_eq_nil.mp hc).2
    obtain ⟨-, hndX, -⟩ := id hxe
    have henotX : e ∉ seg' ++ D := (List.nodup_cons.mp hndX).1
    have henotY : e ∉ pos :: C := hdisj (by simp)
    have hXtoY : ∀ n, n ∈ pos :: C → n ∉ e :: (seg' ++ D) :=
      fun n hn hm => hdisj (by simpa using hm) hn
    have hYtoX : ∀ n, n ∈ seg' ++ D → n ∉ pos :: C :=
      fun n hn hm => hdisj (by simp [hn]) hm
    obtain ⟨hring1, hnull1, hframe1⟩ := unlink_ring h e (seg' ++ D) hxe hrest_ne
    have hY1 : isRing (unlink h e) (pos :: C) := by
      refine isRing_frame (fun n hn => ?_) hy
      have hnm := hXtoY n hn
      refine hframe1 n (fun hc => hnm (by simp [hc])) (fun hc => ?_) (fun hc => ?_)
      · exact hnm (by simp [hc, List.mem_cons_of_mem, List.getLast_mem hrest_ne])
      · exact hnm (by simp [hc, headI_mem_of_ne_nil (seg' ++ D) hrest_ne])
    obtain ⟨hring2, hframe2⟩ := insert_ring (unlink h e) pos e C hY1 henotY
    have hX2 : isRing (insert (unlink h e) pos e) (seg' ++ D) := by
      refine isRing_frame (fun n hn => ?_) hring1
      have hnm := hYtoX n hn
      refine hframe2 n (fun hc => henotX (hc ▸ hn)) (fun hc => hnm (by simp [hc]))
        (fun hc => hnm (hc ▸ List.getLast_mem (List.cons_ne_nil pos C)))
    have hdisj2 : List.Disjoint (seg' ++ D) (pos :: (C ++ [e])) := by
      intro n hn hm
      rcases (by simpa using hm : n = pos ∨ n ∈ C ∨ n = e) with hc | hc | hc
      · exact hYtoX n hn (by simp [hc])
      · exact hYtoX n hn (by simp [hc])
      · exact henotX (hc ▸ hn)
    have hstep : eraseInsertEach h pos (e :: seg') =
        eraseInsertEach (insert (unlink h e) pos e) pos seg' := by
      simp [eraseInsertEach]
    obtain ⟨hfin1, hfin2, hfin3⟩ :=
      ih (insert (unlink h e) pos e) (C ++ [e]) D hX2 hring2 hdisj2 hD
    refine ⟨by rwa [hstep], ?_, ?_⟩
    · rw [hstep]
      have hle : pos :: (C ++ [e] ++ seg') = pos :: (C ++ (e :: seg')) := by simp
      rwa [hle] at hfin2
    · intro n hnX hnY
      have hne : n ≠ e := fun hc => hnX (by simp [hc])
      have hnX' : n ∉ seg' ++ D := fun hc => hnX (by simp [hc])
      rw [hstep]
      rw [hfin3 n hnX' (by
        intro hm
        rcases (by simpa using hm : n = pos ∨ n ∈ C ∨ n = e) with hc | hc | hc
        · exact hnY (by simp [hc])
        · exact hnY (by simp [hc])
        · exact hne hc)]
      rw [hframe2 n hne (fun hc => hnY (by simp [hc]))
        (fun hc => hnY (hc ▸ List.getLast_mem (List.cons_ne_nil pos C)))]
      refine hframe1 n hne (fun hc => ?_) (fun hc => ?_)
      · exact hnX' (hc ▸ List.getLast_mem hrest_ne)
      · exact hnX' (hc ▸ headI_mem_of_ne_nil (seg' ++ D) hrest_ne)

/-- Erasing the range `seg` from the ring `pos :: (U ++ seg ++ V)` element by
element and re-inserting each before `pos` moves the range to just before
`pos`, i.e. to the cyclic end: the ring becomes `pos :: (U ++ V ++ seg)`.
`V ≠ []` says `pos` is not the `last` position of the moved range. -/
theorem eraseInsertEach_same_ring (pos : Nat) :
    ∀ (seg : List Nat) (h : Heap) (U V : List Nat),
      isRing h (pos :: (U ++ seg ++ V)) → V ≠ [] →
      isRing (eraseInsertEach h pos seg) (pos :: (U ++ V ++ seg)) ∧
        ∀ n, n ∉ pos :: (U ++ seg ++ V) → (eraseInsertEach h pos seg) n = h n := by
  intro seg
  induction seg with
  | nil =>
    intro h U V hr hV
    exact ⟨by simpa using hr, fun n _ => rfl⟩
  | cons e seg' ih =>
    intro h U V hr hV
    have hr' : isRing h ((pos :: U) ++ (e :: (seg' ++ V))) := by
      have hle : (pos :: U) ++ (e :: (seg' ++ V)) = pos :: (U ++ (e :: seg') ++ V) := by
        simp
      rwa [hle]
    have hrot : isRing h (e :: ((seg' ++ V) ++ (pos :: U))) :=
      isRing_rotate h (pos :: U) e (seg' ++ V) hr'
    have hrest_ne : (seg' ++ V) ++ (pos :: U) ≠ [] := by simp
    obtain ⟨-, hndrot, -⟩ := id hrot
    have henot0 : e ∉ (seg' ++ V) ++ (pos :: U) := (List.nodup_cons.mp hndrot).1
    obtain ⟨hring1, hnull1, hframe1⟩ := unlink_ring h e _ hrot hrest_ne
    have hY1 : isRing (unlink h e) (pos :: (U ++ (seg' ++ V))) := by
      have := isRing_rotate (unlink h e) (seg' ++ V) pos U hring1
      simpa using this
    have henotY : e ∉ pos :: (U ++ (seg' ++ V)) := by
      intro hm
      refine henot0 ?_
      rcases (by simpa using hm : e = pos ∨ e ∈ U ∨ e ∈ seg' ∨ e ∈ V) with hc | hc | hc | hc
      · simp [hc]
      · simp [hc]
      · simp [hc]
      · simp [hc]
    obtain ⟨hring2, hframe2⟩ := insert_ring (unlink h e) pos e (U ++ (seg' ++ V)) hY1 henotY
    have hring2' : isRing (insert (unlink h e) pos e) (pos :: (U ++ seg' ++ (V ++ [e]))) := by
      have hle : pos :: (U ++ (seg' ++ V) ++ [e]) = pos :: (U ++ seg' ++ (V ++ [e])) := by
        simp
      rwa [hle] at hring2
    have hstep : eraseInsertEach h pos (e :: seg') =
        eraseInsertEach (insert (unlink h e) pos e) pos seg' := by
      simp [eraseInsertEach]
    obtain ⟨hfin1, hfin2⟩ :=
      ih (insert (unlink h e) pos e) U (V ++ [e]) hring2' (by simp)
    constructor
    · rw [hstep]
      have hle : pos :: (U ++ (V ++ [e]) ++ seg') = pos :: (U ++ V ++ (e :: seg')) := by
        simp
      rwa [hle] at hfin1
    · intro n hn
      have hmem : ¬n = pos ∧ n ∉ U ∧ ¬n = e ∧ n ∉ seg' ∧ n ∉ V := by
        simpa using hn
      obtain ⟨hnpos, hnU, hne, hnseg, hnV⟩ := hmem
      rw [hstep]
      rw [hfin2 n (by simp [hnpos, hnU, hnseg, hnV, hne])]
      rw [hframe2 n hne hnpos (fun hc => ?_)]
      · refine hframe1 n hne (fun hc => ?_) (fun hc => ?_)
        · have := List.getLast_mem hrest_ne
          rw [← hc] at this
          rcases (by simpa using this : n ∈ seg' ∨ n ∈ V ∨ n = pos ∨ n ∈ U) with
            hd | hd | hd | hd
          · exact hnseg hd
          · exact hnV hd
          · exact hnpos hd
          · exact hnU hd
        · have := headI_mem_of_ne_nil _ hrest_ne
          rw [← hc] at this
          rcases (by simpa using this : n ∈ seg' ∨ n ∈ V ∨ n = pos ∨ n ∈ U) with
            hd | hd | hd | hd
          · exact hnseg hd
          · exact hnV hd
          · exact hnpos hd
          · exact hnU hd
      · have := List.getLast_mem (List.cons_ne_nil pos (U ++ (seg' ++ V)))
        rw [← hc] at this
        rcases (by simpa using this : n = pos ∨ n ∈ U ∨ n ∈ seg' ∨ n ∈ V) with
          hd | hd | hd | hd
        · exact hnpos hd
        · exact hnU hd
        · exact hnseg hd
        · exact hnV hd

/-- The `next` pointer of the last node of a ring points back at the head. -/
theorem ring_next_getLast (h : Heap) (a : Nat) (rest : List Nat)
    (hr : isRing h (a :: rest)) :
    (h ((a :: rest).getLast (List.cons_ne_nil a rest))).next = some a := by
  rcases hr with ⟨-, -, hc⟩
  rcases (chain_append h (a :: rest) [a]).mp hc with ⟨-, -, hb⟩
  have hba := hb _ (by rw [List.getLast?_eq_getLast_of_ne_nil (List.cons_ne_nil a rest)]; rfl)
    a (by rfl)
  exact hba.1

theorem ring_chain_self (h : Heap) (xs : List Nat) (hr : isRing h xs) : chain h xs := by
  rcases hr with ⟨-, -, hc⟩
  exact ((chain_append h xs [xs.headI]).mp hc).1

theorem getLast_cons_append (a : Nat) (s t : List Nat) (ht : t ≠ []) :
    (a :: (s ++ t)).getLast (List.cons_ne_nil a (s ++ t)) = t.getLast ht := by
  rw [List.getLast_cons (by simp [ht] : s ++ t ≠ [])]
  exact List.getLast_append' s t ht

/-- Effect of `splice` between two disjoint rings: called on `pos` with
`first` the head of the range `seg` and `last` the node after the range, it
moves `seg` out of the source ring `seg ++ D` and inserts it immediately
before `pos` in the destination ring `pos :: C`, touching nothing outside
the two rings. -/
theorem splice_two_ring (h : Heap) (pos : Nat) (seg D C : List Nat)
    (hX : isRing h (seg ++ D)) (hY : isRing h (pos :: C))
    (hdisj : List.Disjoint (seg ++ D) (pos :: C))
    (hseg : seg ≠ []) (hD : D ≠ []) :
    isRing (splice h pos seg.headI D.headI) D ∧
      isRing (splice h pos seg.headI D.headI) (pos :: (C ++ seg)) ∧
      ∀ n, n ∉ seg ++ D → n ∉ pos :: C → (splice h pos seg.headI D.headI) n = h n := by
  obtain ⟨f, segT, rfl⟩ : ∃ f segT, seg = f :: segT := by
    cases seg with
    | nil => exact absurd rfl hseg
    | cons x xs => exact ⟨x, xs, rfl⟩
  obtain ⟨l, DT, rfl⟩ : ∃ l DT, D = l :: DT := by
    cases D with
    | nil => exact absurd rfl hD
    | cons x xs => exact ⟨x, xs, rfl⟩
  obtain ⟨-, hndX, -⟩ := id hX
  obtain ⟨-, hndY, -⟩ := id hY
  obtain ⟨hndseg, hndD, hdisjXp⟩ := List.nodup_append.mp hndX
  -- the three predecessors
  have hPp : (h pos).prev = some ((pos :: C).getLast (List.cons_ne_nil pos C)) :=
    ring_prev_head h pos C hY
  have hPn : (h ((pos :: C).getLast (List.cons_ne_nil pos C))).next = some pos :=
    ring_next_getLast h pos C hY
  have hXf : isRing h (f :: (segT ++ (l :: DT))) := by simpa using hX
  have hAp : (h f).prev = some ((l :: DT).getLast (List.cons_ne_nil l DT)) := by
    have h0 := ring_prev_head h f (segT ++ (l :: DT)) hXf
    rwa [getLast_cons_append f segT (l :: DT) (List.cons_ne_nil l DT)] at h0
  have hAn : (h ((l :: DT).getLast (List.cons_ne_nil l DT))).next = some f := by
    have h0 := ring_next_getLast h f (segT ++ (l :: DT)) hXf
    rwa [getLast_cons_append f segT (l :: DT) (List.cons_ne_nil l DT)] at h0
  have hXl : isRing h (l :: (DT ++ (f :: segT))) := by
    have h0 := isRing_rotate h (f :: segT) l DT (by simpa using hX)
    simpa using h0
  have hEp : (h l).prev = some ((f :: segT).getLast (List.cons_ne_nil f segT)) := by
    have h0 := ring_prev_head h l (DT ++ (f :: segT)) hXl
    rwa [getLast_cons_append l DT (f :: segT) (List.cons_ne_nil f segT)] at h0
  have hEn : (h ((f :: segT).getLast (List.cons_ne_nil f segT))).next = some l := by
    have h0 := ring_next_getLast h l (DT ++ (f :: segT)) hXl
    rwa [getLast_cons_append l DT (f :: segT) (List.cons_ne_nil f segT)] at h0
  -- memberships and distinctness
  have hPmem : (pos :: C).getLast (List.cons_ne_nil pos C) ∈ pos :: C := List.getLast_mem _
  have hAmem : (l :: DT).getLast (List.cons_ne_nil l DT) ∈ l :: DT := List.getLast_mem _
  have hEmem : (f :: segT).getLast (List.cons_ne_nil f segT) ∈ f :: segT := List.getLast_mem _
  have hfX : f ∈ (f :: segT) ++ (l :: DT) := by simp
  have hlX : l ∈ (f :: segT) ++ (l :: DT) := by simp
  have hfl : f ≠ l := by
    intro hc; exact hdisjXp (List.mem_cons_self f segT) (by simp [hc])
  have hfpos : f ≠ pos := fun hc => hdisj hfX (by simp [hc])
  have hlpos : l ≠ pos := fun hc => hdisj hlX (by simp [hc])
  have hAX : (l :: DT).getLast (List.cons_ne_nil l DT) ∈ (f :: segT) ++ (l :: DT) :=
    List.mem_append_right _ hAmem
  have hEX : (f :: segT).getLast (List.cons_ne_nil f segT) ∈ (f :: segT) ++ (l :: DT) :=
    List.mem_append_left _ hEmem
  have hPA : (pos :: C).getLast (List.cons_ne_nil pos C) ≠
      (l :: DT).getLast (List.cons_ne_nil l DT) := by
    intro hc; exact hdisj (by rw [hc] at hPmem ⊢; exact hAX) hPmem
  have hPE : (pos :: C).getLast (List.cons_ne_nil pos C) ≠
      (f :: segT).getLast (List.cons_ne_nil f segT) := by
    intro hc; exact hdisj (by rw [hc] at hPmem ⊢; exact hEX) hPmem
  have hAE : (l :: DT).getLast (List.cons_ne_nil l DT) ≠
      (f :: segT).getLast (List.cons_ne_nil f segT) := by
    intro hc; exact hdisjXp (by rw [hc]; exact hEmem) hAmem
  have heq := splice_eq h pos f l ((pos :: C).getLast (List.cons_ne_nil pos C))
    ((l :: DT).getLast (List.cons_ne_nil l DT))
    ((f :: segT).getLast (List.cons_ne_nil f segT))
    hPp hAp hEp hfl hfpos hlpos hPA hPE hAE
  have hchX : chain h ((f :: segT) ++ (l :: DT)) := ring_chain_self h _ hX
  obtain ⟨hchseg, hchD, -⟩ := (chain_append h (f :: segT) (l :: DT)).mp hchX
  have hchY : chain h (pos :: C) := ring_chain_self h _ hY
  simp only [List.headI]
  refine ⟨⟨List.cons_ne_nil l DT, hndD, ?_⟩, ⟨List.cons_ne_nil _ _, ?_, ?_⟩, ?_⟩
  · -- the source ring shrinks to D
    show chain (splice h pos f l) ((l :: DT) ++ [l])
    have hchD' : chain (splice h pos f l) (l :: DT) := by
      refine chain_transfer (fun a ha => ?_) (fun b hb => ?_) hchD
      · have haD : a ∈ l :: DT := List.dropLast_subset _ ha
        have h1 : a ≠ (pos :: C).getLast (List.cons_ne_nil pos C) := by
          intro hc; exact hdisj (List.mem_append_right _ haD) (by rw [hc]; exact hPmem)
        have h2 : a ≠ (l :: DT).getLast (List.cons_ne_nil l DT) := by
          intro hc
          exact getLast_not_mem_dropLast (l :: DT) (List.cons_ne_nil l DT) hndD
            (by rw [← hc]; exact ha)
        have h3 : a ≠ (f :: segT).getLast (List.cons_ne_nil f segT) := by
          intro hc; exact hdisjXp (by rw [hc]; exact hEmem) haD
        simp [heq, h1, h2, h3]
      · have hbD : b ∈ l :: DT := List.mem_of_mem_tail hb
        have h1 : b ≠ pos := fun hc =>
          hdisj (List.mem_append_right _ hbD) (by rw [hc]; exact List.mem_cons_self pos C)
        have h2 : b ≠ l := by
          intro hc
          exact headI_not_mem_tail (l :: DT) hndD (List.cons_ne_nil l DT) (by rw [← hc]; exact hb)
        have h3 : b ≠ f := fun hc =>
          hdisjXp (by rw [hc]; exact List.mem_cons_self f segT) hbD
        simp [heq, h1, h2, h3]
    refine (chain_append _ (l :: DT) [l]).mpr ⟨hchD', List.chain'_singleton l, ?_⟩
    intro x hx y hy
    have hx' : x = (l :: DT).getLast (List.cons_ne_nil l DT) := by
      rw [List.getLast?_eq_getLast_of_ne_nil (List.cons_ne_nil l DT)] at hx
      exact (by simpa using hx : (l :: DT).getLast (List.cons_ne_nil l DT) = x).symm
    have hy' : y = l := by exact (by simpa using hy : l = y).symm
    subst hx'; subst hy'
    constructor
    · simp [heq, Ne.symm hPA, hEn]
    · simp [heq, hlpos]
  · -- the destination ring is nodup
    rw [List.nodup_cons]
    constructor
    · intro hmem
      rcases List.mem_append.mp hmem with hm | hm
      · exact (List.nodup_cons.mp hndY).1 hm
      · exact hdisj (List.mem_append_left _ hm) (List.mem_cons_self pos C)
    · refine ((List.nodup_cons.mp hndY).2).append hndseg ?_
      intro x hxC hxseg
      exact hdisj (List.mem_append_left _ hxseg) (List.mem_cons_of_mem pos hxC)
  · -- the destination ring chain
    show chain (splice h pos f l)
      ((pos :: (C ++ (f :: segT))) ++ [(pos :: (C ++ (f :: segT))).headI])
    have hsh : (pos :: (C ++ (f :: segT))) ++ [(pos :: (C ++ (f :: segT))).headI] =
        (pos :: C) ++ ((f :: segT) ++ [pos]) := by simp
    rw [hsh]
    have hchY' : chain (splice h pos f l) (pos :: C) := by
      refine chain_transfer (fun a ha => ?_) (fun b hb => ?_) hchY
      · have haY : a ∈ pos :: C := List.dropLast_subset _ ha
        have h1 : a ≠ (pos :: C).getLast (List.cons_ne_nil pos C) := by
          intro hc
          exact getLast_not_mem_dropLast (pos :: C) (List.cons_ne_nil pos C) hndY
            (by rw [← hc]; exact ha)
        have h2 : a ≠ (l :: DT).getLast (List.cons_ne_nil l DT) := by
          intro hc; exact hdisj (by rw [hc] at haY ⊢; exact hAX) haY
        have h3 : a ≠ (f :: segT).getLast (List.cons_ne_nil f segT) := by
          intro hc; exact hdisj (by rw [hc] at haY ⊢; exact hEX) haY
        simp [heq, h1, h2, h3]
      · have hbY : b ∈ pos :: C := List.mem_of_mem_tail hb
        have h1 : b ≠ pos := by
          intro hc
          exact headI_not_mem_tail (pos :: C) hndY (List.cons_ne_nil pos C)
            (by rw [← hc]; exact hb)
        have h2 : b ≠ l := fun hc => hdisj (by rw [hc] at hbY ⊢; exact hlX) hbY
        have h3 : b ≠ f := fun hc => hdisj (by rw [hc] at hbY ⊢; exact hfX) hbY
        simp [heq, h1, h2, h3]
    have hchseg' : chain (splice h pos f l) (f :: segT) := by
      refine chain_transfer (fun a ha => ?_) (fun b hb => ?_) hchseg
      · have haS : a ∈ f :: segT := List.dropLast_subset _ ha
        have h1 : a ≠ (pos :: C).getLast (List.cons_ne_nil pos C) := by
          intro hc; exact hdisj (List.mem_append_left _ haS) (by rw [hc]; exact hPmem)
        have h2 : a ≠ (l :: DT).getLast (List.cons_ne_nil l DT) := by
          intro hc; exact hdisjXp haS (by rw [hc]; exact hAmem)
        have h3 : a ≠ (f :: segT).getLast (List.cons_ne_nil f segT) := by
          intro hc
          exact getLast_not_mem_dropLast (f :: segT) (List.cons_ne_nil f segT) hndseg
            (by rw [← hc]; exact ha)
        simp [heq, h1, h2, h3]
      · have hbS : b ∈ f :: segT := List.mem_of_mem_tail hb
        have h1 : b ≠ pos := fun hc =>
          hdisj (List.mem_append_left _ hbS) (by rw [hc]; exact List.mem_cons_self pos C)
        have h2 : b ≠ l := fun hc => hdisjXp hbS (by rw [hc]; exact List.mem_cons_self l DT)
        have h3 : b ≠ f := by
          intro hc
          exact headI_not_mem_tail (f :: segT) hndseg (List.cons_ne_nil f segT)
            (by rw [← hc]; exact hb)
        simp [heq, h1, h2, h3]
    refine (chain_append _ (pos :: C) ((f :: segT) ++ [pos])).mpr ⟨hchY', ?_, ?_⟩
    · refine (chain_append _ (f :: segT) [pos]).mpr ⟨hchseg', List.chain'_singleton pos, ?_⟩
      intro x hx y hy
      have hx' : x = (f :: segT).getLast (List.cons_ne_nil f segT) := by
        rw [List.getLast?_eq_getLast_of_ne_nil (List.cons_ne_nil f segT)] at hx
        exact (by simpa using hx : (f :: segT).getLast (List.cons_ne_nil f segT) = x).symm
      have hy' : y = pos := by exact (by simpa using hy : pos = y).symm
      subst hx'; subst hy'
      constructor
      · simp [heq, Ne.symm hPE, Ne.symm hAE, hPn]
      · simp [heq]
    · intro x hx y hy
      have hx' : x = (pos :: C).getLast (List.cons_ne_nil pos C) := by
        rw [List.getLast?_eq_getLast_of_ne_nil (List.cons_ne_nil pos C)] at hx
        exact (by simpa using hx : (pos :: C).getLast (List.cons_ne_nil pos C) = x).symm
      have hy' : y = f := by
        exact (by simpa using hy : f = y).symm
      subst hx'; subst hy'
      constructor
      · simp [heq, hAn]
      · simp [heq, hfpos, hfl]
  · -- frame
    intro n hnX hnY
    have h1 : n ≠ pos := fun hc => hnY (by rw [hc]; exact List.mem_cons_self pos C)
    have h2 : n ≠ l := fun hc => hnX (by rw [hc]; exact hlX)
    have h3 : n ≠ f := fun hc => hnX (by rw [hc]; exact hfX)
    have h4 : n ≠ (pos :: C).getLast (List.cons_ne_nil pos C) := fun hc =>
      hnY (by rw [hc]; exact hPmem)
    have h5 : n ≠ (l :: DT).getLast (List.cons_ne_nil l DT) := fun hc =>
      hnX (by rw [hc]; exact hAX)
    have h6 : n ≠ (f :: segT).getLast (List.cons_ne_nil f segT) := fun hc =>
      hnX (by rw [hc]; exact hEX)
    simp [heq, h1, h2, h3, h4, h5, h6]

/-- Effect of `splice` within a single ring `pos :: (U ++ seg ++ V)`, moving
the range `seg` to just before `pos`: the ring becomes
`pos :: (U ++ V ++ seg)`.  `V ≠ []` is the extra precondition `pos ≠ last`
without which the operation corrupts the ring. -/
theorem splice_same_ring (h : Heap) (pos : Nat) (U seg V : List Nat)
    (hr : isRing h (pos :: (U ++ seg ++ V)))
    (hseg : seg ≠ []) (hV : V ≠ []) :
    isRing (splice h pos seg.headI V.headI) (pos :: (U ++ V ++ seg)) ∧
      ∀ n, n ∉ pos :: (U ++ seg ++ V) → (splice h pos seg.headI V.headI) n = h n := by
  obtain ⟨f, segT, rfl⟩ : ∃ f segT, seg = f :: segT := by
    cases seg with
    | nil => exact absurd rfl hseg
    | cons x xs => exact ⟨x, xs, rfl⟩
  obtain ⟨l, VT, rfl⟩ : ∃ l VT, V = l :: VT := by
    cases V with
    | nil => exact absurd rfl hV
    | cons x xs => exact ⟨x, xs, rfl⟩
  obtain ⟨-, hnd, -⟩ := id hr
  obtain ⟨hposout, hndrest⟩ := List.nodup_cons.mp hnd
  obtain ⟨hndUS, hndV, hdisjUSV⟩ := List.nodup_append.mp hndrest
  obtain ⟨hndU, hndseg, hdisjUS⟩ := List.nodup_append.mp hndUS
  -- the three predecessors
  have hPp : (h pos).prev = some ((l :: VT).getLast (List.cons_ne_nil l VT)) := by
    have h0 := ring_prev_head h pos (U ++ (f :: segT) ++ (l :: VT)) hr
    rwa [getLast_cons_append pos (U ++ (f :: segT)) (l :: VT) (List.cons_ne_nil l VT)] at h0
  have hPn : (h ((l :: VT).getLast (List.cons_ne_nil l VT))).next = some pos := by
    have h0 := ring_next_getLast h pos (U ++ (f :: segT) ++ (l :: VT)) hr
    rwa [getLast_cons_append pos (U ++ (f :: segT)) (l :: VT) (List.cons_ne_nil l VT)] at h0
  have hrf : isRing h (f :: ((segT ++ (l :: VT)) ++ (pos :: U))) := by
    have h0 : isRing h ((pos :: U) ++ (f :: (segT ++ (l :: VT)))) := by
      have hle : (pos :: U) ++ (f :: (segT ++ (l :: VT))) =
          pos :: (U ++ (f :: segT) ++ (l :: VT)) := by simp
      rwa [hle]
    exact isRing_rotate h (pos :: U) f (segT ++ (l :: VT)) h0
  have hAp : (h f).prev = some ((pos :: U).getLast (List.cons_ne_nil pos U)) := by
    have h0 := ring_prev_head h f ((segT ++ (l :: VT)) ++ (pos :: U)) hrf
    rwa [getLast_cons_append f (segT ++ (l :: VT)) (pos :: U) (List.cons_ne_nil pos U)] at h0
  have hAn : (h ((pos :: U).getLast (List.cons_ne_nil pos U))).next = some f := by
    have h0 := ring_next_getLast h f ((segT ++ (l :: VT)) ++ (pos :: U)) hrf
    rwa [getLast_cons_append f (segT ++ (l :: VT)) (pos :: U) (List.cons_ne_nil pos U)] at h0
  have hrl : isRing h (l :: (VT ++ (pos :: (U ++ (f :: segT))))) := by
    have h0 : isRing h ((pos :: (U ++ (f :: segT))) ++ (l :: VT)) := by
      have hle : (pos :: (U ++ (f :: segT))) ++ (l :: VT) =
          pos :: (U ++ (f :: segT) ++ (l :: VT)) := by simp
      rwa [hle]
    exact isRing_rotate h (pos :: (U ++ (f :: segT))) l VT h0
  have hEp : (h l).prev = some ((f :: segT).getLast (List.cons_ne_nil f segT)) := by
    have h0 := ring_prev_head h l (VT ++ (pos :: (U ++ (f :: segT)))) hrl
    rw [getLast_cons_append l VT (pos :: (U ++ (f :: segT)))
      (List.cons_ne_nil pos (U ++ (f :: segT)))] at h0
    rwa [getLast_cons_append pos U (f :: segT) (List.cons_ne_nil f segT)] at h0
  have hEn : (h ((f :: segT).getLast (List.cons_ne_nil f segT))).next = some l := by
    have h0 := ring_next_getLast h l (VT ++ (pos :: (U ++ (f :: segT)))) hrl
    rw [getLast_cons_append l VT (pos :: (U ++ (f :: segT)))
      (List.cons_ne_nil pos (U ++ (f :: segT)))] at h0
    rwa [getLast_cons_append pos U (f :: segT) (List.cons_ne_nil f segT)] at h0
  -- memberships and distinctness
  have hPmem : (l :: VT).getLast (List.cons_ne_nil l VT) ∈ l :: VT := List.getLast_mem _
  have hAmem : (pos :: U).getLast (List.cons_ne_nil pos U) ∈ pos :: U := List.getLast_mem _
  have hEmem : (f :: segT).getLast (List.cons_ne_nil f segT) ∈ f :: segT := List.getLast_mem _
  have hposrest : ∀ x, x ∈ U ++ (f :: segT) ++ (l :: VT) → x ≠ pos := by
    intro x hx hc
    exact hposout (by rw [← hc]; exact hx)
  have hfmem : f ∈ U ++ (f :: segT) ++ (l :: VT) := by simp
  have hlmem : l ∈ U ++ (f :: segT) ++ (l :: VT) := by simp
  have hfl : f ≠ l := by
    intro hc
    exact hdisjUSV (List.mem_append_right U (List.mem_cons_self f segT))
      (by rw [hc]; exact List.mem_cons_self l VT)
  have hfpos : f ≠ pos := hposrest f hfmem
  have hlpos : l ≠ pos := hposrest l hlmem
  have hPA : (l :: VT).getLast (List.cons_ne_nil l VT) ≠
      (pos :: U).getLast (List.cons_ne_nil pos U) := by
    intro hc
    rcases List.mem_cons.mp hAmem with hA | hA
    · exact hposrest _ (List.mem_append_right _ hPmem) (hc.trans hA)
    · exact hdisjUSV (List.mem_append_left _ (by rw [hc]; exact hA)) hPmem
  have hPE : (l :: VT).getLast (List.cons_ne_nil l VT) ≠
      (f :: segT).getLast (List.cons_ne_nil f segT) := by
    intro hc
    exact hdisjUSV (List.mem_append_right U (by rw [hc]; exact hEmem)) hPmem
  have hAE : (pos :: U).getLast (List.cons_ne_nil pos U) ≠
      (f :: segT).getLast (List.cons_ne_nil f segT) := by
    intro hc
    rcases List.mem_cons.mp hAmem with hA | hA
    · exact hposrest _ (List.mem_append_left _ (List.mem_append_right U hEmem))
        (hc.symm.trans hA)
    · exact hdisjUS (by rw [← hc]; exact hA) hEmem
  have heq := splice_eq h pos f l ((l :: VT).getLast (List.cons_ne_nil l VT))
    ((pos :: U).getLast (List.cons_ne_nil pos U))
    ((f :: segT).getLast (List.cons_ne_nil f segT))
    hPp hAp hEp hfl hfpos hlpos hPA hPE hAE
  -- the three sub-chains of the original ring
  have hch : chain h ((pos :: U) ++ ((f :: segT) ++ (l :: VT))) := by
    have h0 := ring_chain_self h _ hr
    have hle : pos :: (U ++ (f :: segT) ++ (l :: VT)) =
        (pos :: U) ++ ((f :: segT) ++ (l :: VT)) := by simp
    rwa [hle] at h0
  obtain ⟨hchU, hchSV, -⟩ := (chain_append h (pos :: U) ((f :: segT) ++ (l :: VT))).mp hch
  obtain ⟨hchseg, hchV, -⟩ := (chain_append h (f :: segT) (l :: VT)).mp hchSV
  simp only [List.headI]
  -- transferred sub-chains
  have hchU' : chain (splice h pos f l) (pos :: U) := by
    refine chain_transfer (fun a ha => ?_) (fun b hb => ?_) hchU
    · have haU : a ∈ pos :: U := List.dropLast_subset _ ha
      have h1 : a ≠ (l :: VT).getLast (List.cons_ne_nil l VT) := by
        intro hc
        rcases List.mem_cons.mp haU with hA | hA
        · exact hposrest _ (List.mem_append_right _ hPmem) (hc.symm.trans hA)
        · exact hdisjUSV (List.mem_append_left _ (by rw [← hc]; exact hA)) hPmem
      have h2 : a ≠ (pos :: U).getLast (List.cons_ne_nil pos U) := by
        intro hc
        exact getLast_not_mem_dropLast (pos :: U) (List.cons_ne_nil pos U)
          (List.nodup_cons.mpr ⟨fun hm => hposrest pos (List.mem_append_left _ (List.mem_append_left _ hm)) rfl, hndU⟩)
          (by rw [← hc]; exact ha)
      have h3 : a ≠ (f :: segT).getLast (List.cons_ne_nil f segT) := by
        intro hc
        rcases List.mem_cons.mp haU with hA | hA
        · exact hposrest _ (List.mem_append_left _ (List.mem_append_right U hEmem))
            (hc.symm.trans hA)
        · exact hdisjUS (by rw [← hc]; exact hA) hEmem
      simp [heq, h1, h2, h3]
    · have hbU : b ∈ U := by simpa using hb
      have h1 : b ≠ pos := fun hc =>
        hposrest b (List.mem_append_left _ (List.mem_append_left _ hbU)) hc
      have h2 : b ≠ l := fun hc =>
        hdisjUSV (List.mem_append_left _ hbU) (by rw [hc]; exact List.mem_cons_self l VT)
      have h3 : b ≠ f := fun hc =>
        hdisjUS hbU (by rw [hc]; exact List.mem_cons_self f segT)
      simp [heq, h1, h2, h3]
  have hchV' : chain (splice h pos f l) (l :: VT) := by
    refine chain_transfer (fun a ha => ?_) (fun b hb => ?_) hchV
    · have haV : a ∈ l :: VT := List.dropLast_subset _ ha
      have h1 : a ≠ (l :: VT).getLast (List.cons_ne_nil l VT) := by
        intro hc
        exact getLast_not_mem_dropLast (l :: VT) (List.cons_ne_nil l VT) hndV
          (by rw [← hc]; exact ha)
      have h2 : a ≠ (pos :: U).getLast (List.cons_ne_nil pos U) := by
        intro hc
        rcases List.mem_cons.mp hAmem with hA | hA
        · exact hposrest a (List.mem_append_right _ haV) (hc.trans hA)
        · exact hdisjUSV (List.mem_append_left _ (by rw [hc]; exact hA)) haV
      have h3 : a ≠ (f :: segT).getLast (List.cons_ne_nil f segT) := by
        intro hc
        exact hdisjUSV (List.mem_append_right U (by rw [hc]; exact hEmem)) haV
      simp [heq, h1, h2, h3]
    · have hbV : b ∈ l :: VT := List.mem_of_mem_tail hb
      have h1 : b ≠ pos := fun hc => hposrest b (List.mem_append_right _ hbV) hc
      have h2 : b ≠ l := by
        intro hc
        exact headI_not_mem_tail (l :: VT) hndV (List.cons_ne_nil l VT)
          (by rw [← hc]; exact hb)
      have h3 : b ≠ f := fun hc =>
        hdisjUSV (List.mem_append_right U (by rw [hc]; exact List.mem_cons_self f segT)) hbV
      simp [heq, h1, h2, h3]
  have hchseg' : chain (splice h pos f l) (f :: segT) := by
    refine chain_transfer (fun a ha => ?_) (fun b hb => ?_) hchseg
    · have haS : a ∈ f :: segT := List.dropLast_subset _ ha
      have h1 : a ≠ (l :: VT).getLast (List.cons_ne_nil l VT) := by
        intro hc
        exact hdisjUSV (List.mem_append_right U haS) (by rw [hc]; exact hPmem)
      have h2 : a ≠ (pos :: U).getLast (List.cons_ne_nil pos U) := by
        intro hc
        rcases List.mem_cons.mp hAmem with hA | hA
        · exact hposrest a (List.mem_append_left _ (List.mem_append_right U haS))
            (hc.trans hA)
        · exact hdisjUS (by rw [hc]; exact hA) haS
      have h3 : a ≠ (f :: segT).getLast (List.cons_ne_nil f segT) := by
        intro hc
        exact getLast_not_mem_dropLast (f :: segT) (List.cons_ne_nil f segT) hndseg
          (by rw [← hc]; exact ha)
      simp [heq, h1, h2, h3]
    · have hbS : b ∈ f :: segT := List.mem_of_mem_tail hb
      have h1 : b ≠ pos := fun hc =>
        hposrest b (List.mem_append_left _ (List.mem_append_right U hbS)) hc
      have h2 : b ≠ l := fun hc =>
        hdisjUSV (List.mem_append_right U hbS) (by rw [hc]; exact List.mem_cons_self l VT)
      have h3 : b ≠ f := by
        intro hc
        exact headI_not_mem_tail (f :: segT) hndseg (List.cons_ne_nil f segT)
          (by rw [← hc]; exact hb)
      simp [heq, h1, h2, h3]
  constructor
  · -- the rearranged ring
    refine ⟨List.cons_ne_nil _ _, ?_, ?_⟩
    · rw [List.nodup_cons]
      refine ⟨?_, ?_⟩
      · intro hmem
        refine hposrest pos ?_ rfl
        rcases List.mem_append.mp hmem with hm | hm
        · rcases List.mem_append.mp hm with hm' | hm'
          · exact List.mem_append_left _ (List.mem_append_left _ hm')
          · exact List.mem_append_right _ hm'
        · exact List.mem_append_left _ (List.mem_append_right U hm)
      · have hd1 : List.Disjoint (U ++ (l :: VT)) (f :: segT) := by
          intro x hx hxs
          rcases List.mem_append.mp hx with hm | hm
          · exact hdisjUS hm hxs
          · exact hdisjUSV (List.mem_append_right U hxs) hm
        refine List.Nodup.append ?_ hndseg ?_
        · refine List.Nodup.append hndU hndV ?_
          intro x hx hxv
          exact hdisjUSV (List.mem_append_left _ hx) hxv
        · intro x hx
          exact hd1 hx
    · show chain (splice h pos f l)
        ((pos :: (U ++ (l :: VT) ++ (f :: segT))) ++
          [(pos :: (U ++ (l :: VT) ++ (f :: segT))).headI])
      have hsh : (pos :: (U ++ (l :: VT) ++ (f :: segT))) ++
          [(pos :: (U ++ (l :: VT) ++ (f :: segT))).headI] =
          (pos :: U) ++ ((l :: VT) ++ ((f :: segT) ++ [pos])) := by simp
      rw [hsh]
      refine (chain_append _ (pos :: U) ((l :: VT) ++ ((f :: segT) ++ [pos]))).mpr
        ⟨hchU', ?_, ?_⟩
      · refine (chain_append _ (l :: VT) ((f :: segT) ++ [pos])).mpr ⟨hchV', ?_, ?_⟩
        · refine (chain_append _ (f :: segT) [pos]).mpr
            ⟨hchseg', List.chain'_singleton pos, ?_⟩
          intro x hx y hy
          have hx' : x = (f :: segT).getLast (List.cons_ne_nil f segT) := by
            rw [List.getLast?_eq_getLast_of_ne_nil (List.cons_ne_nil f segT)] at hx
            exact (by simpa using hx :
              (f :: segT).getLast (List.cons_ne_nil f segT) = x).symm
          have hy' : y = pos := by exact (by simpa using hy : pos = y).symm
          subst hx'; subst hy'
          constructor
          · simp [heq, Ne.symm hPE, Ne.symm hAE, hPn]
          · simp [heq]
        · intro x hx y hy
          have hx' : x = (l :: VT).getLast (List.cons_ne_nil l VT) := by
            rw [List.getLast?_eq_getLast_of_ne_nil (List.cons_ne_nil l VT)] at hx
            exact (by simpa using hx :
              (l :: VT).getLast (List.cons_ne_nil l VT) = x).symm
          have hy' : y = f := by
            have hyx : ((f :: segT) ++ [pos]).head? = some f := by simp
            rw [hyx] at hy
            exact (by simpa using hy : f = y).symm
          subst hx'; subst hy'
          constructor
          · simp [heq, hAn]
          · simp [heq, hfpos, hfl]
      · intro x hx y hy
        have hx' : x = (pos :: U).getLast (List.cons_ne_nil pos U) := by
          rw [List.getLast?_eq_getLast_of_ne_nil (List.cons_ne_nil pos U)] at hx
          exact (by simpa using hx :
            (pos :: U).getLast (List.cons_ne_nil pos U) = x).symm
        have hy' : y = l := by
          have hyx : ((l :: VT) ++ ((f :: segT) ++ [pos])).head? = some l := by simp
          rw [hyx] at hy
          exact (by simpa using hy : l = y).symm
        subst hx'; subst hy'
        constructor
        · simp [heq, Ne.symm hPA, hEn]
        · simp [heq, hlpos]
  · -- frame
    intro n hn
    have hmem : ¬n = pos ∧ n ∉ U ∧ ¬n = f ∧ n ∉ segT ∧ ¬n = l ∧ n ∉ VT := by
      simpa using hn
    obtain ⟨hnpos, hnU, hnf, hnsegT, hnl, hnVT⟩ := hmem
    have hnseg : n ∉ f :: segT := by simp [hnf, hnsegT]
    have hnV : n ∉ l :: VT := by simp [hnl, hnVT]
    have h4 : n ≠ (l :: VT).getLast (List.cons_ne_nil l VT) := fun hc =>
      hnV (by rw [hc]; exact hPmem)
    have h5 : n ≠ (pos :: U).getLast (List.cons_ne_nil pos U) := by
      intro hc
      rcases List.mem_cons.mp hAmem with hA | hA
      · exact hnpos (hc.trans hA)
      · exact hnU (by rw [hc]; exact hA)
    have h6 : n ≠ (f :: segT).getLast (List.cons_ne_nil f segT) := fun hc =>
      hnseg (by rw [hc]; exact hEmem)
    simp [heq, hnpos, hnl, hnf, h4, h5, h6]

/-! ### The clear loop -/

/-- The forward path the `clear` loop walks: each node of the list points via
`next` at the following one, and the last points back at `self`. -/
def nextPath (h : Heap) (self : Nat) : List Nat → Prop
  | [] => True
  | [x] => (h x).next = some self
  | x :: y :: rest => (h x).next = some y ∧ nextPath h self (y :: rest)

theorem nextPath_of_chain (h : Heap) (self : Nat) :
    ∀ (xs : List Nat), chain h (xs ++ [self]) → nextPath h self xs := by
  intro xs
  induction xs with
  | nil => intro _; exact trivial
  | cons x ys ih =>
    intro hc
    cases ys with
    | nil =>
      have h1 := List.chain'_cons.mp hc
      exact h1.1.1
    | cons y ys' =>
      have h1 := List.chain'_cons.mp hc
      exact ⟨h1.1.1, ih h1.2⟩

theorem nextPath_of_ring (h : Heap) (fk : Nat) (elems : List Nat)
    (hr : isRing h (fk :: elems)) : nextPath h fk elems := by
  rcases hr with ⟨-, -, hc⟩
  have hc2 : chain h (fk :: (elems ++ [fk])) := by simpa using hc
  exact nextPath_of_chain h fk elems hc2.tail

theorem nextPath_transfer {h h' : Heap} {self : Nat} :
    ∀ {xs : List Nat}, (∀ a ∈ xs, (h' a).next = (h a).next) →
      nextPath h self xs → nextPath h' self xs := by
  intro xs
  induction xs with
  | nil => intro _ _; exact trivial
  | cons x ys ih =>
    intro hagree hp
    cases ys with
    | nil =>
      simp only [nextPath] at hp ⊢
      rw [hagree x (by simp)]; exact hp
    | cons y ys' =>
      simp only [nextPath] at hp ⊢
      exact ⟨by rw [hagree x (by simp)]; exact hp.1,
        ih (fun a ha => hagree a (List.mem_cons_of_mem _ ha)) hp.2⟩

theorem clearLoop_self (self : Nat) (fuel : Nat) (h : Heap) :
    clearLoop self fuel h self = h := by
  cases fuel with
  | zero => rfl
  | succ n => simp [clearLoop]

/-- Running the `clear` loop along a forward path nulls exactly the nodes of
the path. -/
theorem clearLoop_spec (self : Nat) :
    ∀ (rest : List Nat) (p : Nat) (h : Heap) (fuel : Nat),
      nextPath h self (p :: rest) → self ∉ p :: rest → (p :: rest).Nodup →
      (p :: rest).length ≤ fuel →
      (∀ n ∈ p :: rest, clearLoop self fuel h p n = ⟨none, none⟩) ∧
      (∀ n, n ∉ p :: rest → clearLoop self fuel h p n = h n) := by
  intro rest
  induction rest with
  | nil =>
    intro p h fuel hpath hself hnd hfuel
    obtain ⟨fuel', rfl⟩ : ∃ fuel', fuel = fuel' + 1 := by
      cases fuel with
      | zero => simp at hfuel
      | succ n => exact ⟨n, rfl⟩
    have hpself : p ≠ self := fun hc => hself (by rw [← hc]; exact List.mem_cons_self p [])
    have hnext : (h p).next = some self := hpath
    have hred : clearLoop self (fuel' + 1) h p = setNext (setPrev h p none) p none := by
      simp [clearLoop, hpself, hnext, clearLoop_self]
    constructor
    · intro n hn
      have hn' : n = p := by simpa using hn
      subst hn'
      simp [hred, setNext, setPrev]
    · intro n hn
      have hn' : n ≠ p := by simpa using hn
      simp [hred, setNext, setPrev, hn']
  | cons y rest' ih =>
    intro p h fuel hpath hself hnd hfuel
    obtain ⟨fuel', rfl⟩ : ∃ fuel', fuel = fuel' + 1 := by
      cases fuel with
      | zero => simp at hfuel
      | succ n => exact ⟨n, rfl⟩
    have hpself : p ≠ self :=
      fun hc => hself (by rw [← hc]; exact List.mem_cons_self p (y :: rest'))
    obtain ⟨hnext, hpath'⟩ := hpath
    have hred : clearLoop self (fuel' + 1) h p =
        clearLoop self fuel' (setNext (setPrev h p none) p none) y := by
      simp [clearLoop, hpself, hnext]
    have hpnotr : p ∉ y :: rest' := (List.nodup_cons.mp hnd).1
    have hpath1 : nextPath (setNext (setPrev h p none) p none) self (y :: rest') := by
      refine nextPath_transfer (fun a ha => ?_) hpath'
      have hap : a ≠ p := fun hc => hpnotr (by rw [← hc]; exact ha)
      simp [setNext, setPrev, hap]
    obtain ⟨ihA, ihB⟩ := ih y (setNext (setPrev h p none) p none) fuel' hpath1
      (fun hm => hself (List.mem_cons_of_mem _ hm))
      (List.nodup_cons.mp hnd).2
      (by simpa using Nat.le_of_succ_le_succ hfuel)
    constructor
    · intro n hn
      rcases List.mem_cons.mp hn with hn' | hn'
      · subst hn'
        rw [hred, ihB n hpnotr]
        simp [setNext, setPrev]
      · rw [hred]; exact ihA n hn'
    · intro n hn
      have hnp : n ≠ p := fun hc => hn (by rw [hc]; exact List.mem_cons_self p _)
      have hnr : n ∉ y :: rest' := fun hm => hn (List.mem_cons_of_mem _ hm)
      rw [hred, ihB n hnr]
      simp [setNext, setPrev, hnp]

/-- `clear` on a node of a ring (the sentinel use case): the node becomes a
singleton ring, every other ring node becomes unlinked, and nothing outside
the ring changes. -/
theorem clear_ring (h : Heap) (fk : Nat) (elems : List Nat) (fuel : Nat)
    (hr : isRing h (fk :: elems)) (hfuel : elems.length ≤ fuel) :
    (clear fuel h fk) fk = ⟨some fk, some fk⟩ ∧
      (∀ e ∈ elems, (clear fuel h fk) e = ⟨none, none⟩) ∧
      (∀ n, n ≠ fk → n ∉ elems → (clear fuel h fk) n = h n) := by
  obtain ⟨-, hnd, -⟩ := id hr
  have hfke : fk ∉ elems := (List.nodup_cons.mp hnd).1
  cases elems with
  | nil =>
    have hnext : (h fk).next = some fk := by
      have h0 := ring_next_head h fk [] hr
      simpa using h0
    have hred : clear fuel h fk =
        setNext (setPrev (clearLoop fk fuel h fk) fk (some fk)) fk (some fk) := by
      simp [clear, hnext]
    rw [hred, clearLoop_self]
    refine ⟨by simp [setNext, setPrev], by simp, fun n hn _ => by simp [setNext, setPrev, hn]⟩
  | cons e1 erest =>
    have hnext : (h fk).next = some e1 := by
      have h0 := ring_next_head h fk (e1 :: erest) hr
      simpa using h0
    have hpath : nextPath h fk (e1 :: erest) := nextPath_of_ring h fk _ hr
    obtain ⟨ihA, ihB⟩ := clearLoop_spec fk erest e1 h fuel hpath hfke
      (List.nodup_cons.mp hnd).2 hfuel
    have hred : clear fuel h fk =
        setNext (setPrev (clearLoop fk fuel h e1) fk (some fk)) fk (some fk) := by
      simp [clear, hnext]
    refine ⟨?_, ?_, ?_⟩
    · rw [hred]; simp [setNext, setPrev]
    · intro e he
      have hefk : e ≠ fk := fun hc => hfke (by rw [← hc]; exact he)
      rw [hred, setNext_apply_other _ _ _ _ hefk, setPrev_apply_other _ _ _ _ hefk]
      exact ihA e he
    · intro n h1 h2
      rw [hred, setNext_apply_other _ _ _ _ h1, setPrev_apply_other _ _ _ _ h1]
      exact ihB n h2

/-! ### Example heaps used by the witnesses -/

/-- A heap whose nodes 0, 1, 2 form the ring `[0, 1, 2]` (sentinel 0 with two
elements); every other node is unlinked. -/
def exRing3 : Heap := fun n =>
  if n = 0 then ⟨some 2, some 1⟩
  else if n = 1 then ⟨some 0, some 2⟩
  else if n = 2 then ⟨some 1, some 0⟩
  else ⟨none, none⟩

/-- A heap whose nodes 0–3 form the ring `[0, 1, 2, 3]` (sentinel 0 holding
the elements 1, 2, 3 in order) and whose node 7 forms the singleton ring of
an empty list; every other node is unlinked. -/
def exRing4 : Heap := fun n =>
  if n = 0 then ⟨some 3, some 1⟩
  else if n = 1 then ⟨some 0, some 2⟩
  else if n = 2 then ⟨some 1, some 3⟩
  else if n = 3 then ⟨some 2, some 0⟩
  else if n = 7 then ⟨some 7, some 7⟩
  else ⟨none, none⟩

/-! ### The claims -/

/-- C10: `list::splice(pos, otherList, first, last)` never reads `this` or
the `otherList` argument: its result is determined by the three iterator
positions alone, so any two lists passed as `otherList` (and any two
receivers) produce identical final states of all nodes. -/
theorem C10_splice_ignores_otherList :
    ∀ (h : Heap) (thisFk pos o1 o2 f l : Nat),
      listSplice h thisFk pos o1 f l = listSplice h thisFk pos o2 f l :=
  fun _ _ _ _ _ _ _ => rfl

/-- C7: `try_unlink` on a node whose pointers are null is a no-op on the
whole heap; in particular, after `unlink` on a linked node a second
`try_unlink` on the same node changes nothing, and `try_unlink` on a
never-linked node is safe. -/
theorem C7_tryUnlink_idempotent :
    (∀ (h : Heap) (n : Nat), (h n).prev = none → tryUnlink h n = h) ∧
    (∀ (h : Heap) (n p q : Nat), (h n).prev = some p → (h n).next = some q →
      tryUnlink (unlink h n) n = unlink h n) := by
  constructor
  · intro h n hp
    simp [tryUnlink, hp]
  · intro h n p q hp hq
    have hnull : ((unlink h n) n).prev = none := by
      simp [unlink, hp, hq, setNext, setPrev]
    simp [tryUnlink, hnull]

theorem C7_tryUnlink_idempotent_witness :
    tryUnlink exRing3 5 = exRing3 ∧
      tryUnlink (unlink exRing3 1) 1 = unlink exRing3 1 :=
  ⟨C7_tryUnlink_idempotent.1 exRing3 5 (by decide),
    C7_tryUnlink_idempotent.2 exRing3 1 0 2 (by decide) (by decide)⟩

/-- C8: the four asserts of `unlink` characterise its precondition: they
fail whenever `prev` or `next` is null or points at the node itself; and on
the head of a consistent ring of size at least two they all hold and
`unlink` completes, re-linking the two neighbours to each other and nulling
the node's own pointers. -/
theorem C8_unlink_asserts :
    (∀ (h : Heap) (n : Nat),
      ((h n).prev = none ∨ (h n).next = none ∨
        (h n).prev = some n ∨ (h n).next = some n) → ¬unlinkAsserts h n) ∧
    (∀ (h : Heap) (n : Nat) (rest : List Nat) (hr : isRing h (n :: rest))
        (hrest : rest ≠ []),
      unlinkAsserts h n ∧
        isRing (unlink h n) rest ∧
        (unlink h n) n = ⟨none, none⟩ ∧
        ((unlink h n) (rest.getLast hrest)).next = some rest.headI ∧
        ((unlink h n) rest.headI).prev = some (rest.getLast hrest)) := by
  constructor
  · intro h n hviol hok
    obtain ⟨h1, h2, h3, h4⟩ := hok
    rcases hviol with hv | hv | hv | hv
    · exact h1 hv
    · exact h2 hv
    · exact h3 hv
    · exact h4 hv
  · intro h n rest hr hrest
    obtain ⟨-, hnd, -⟩ := id hr
    have hne : n ∉ rest := (List.nodup_cons.mp hnd).1
    have hp : (h n).prev = some (rest.getLast hrest) := by
      have h0 := ring_prev_head h n rest hr
      rwa [List.getLast_cons hrest] at h0
    have hq : (h n).next = some rest.headI := by
      have h0 := ring_next_head h n rest hr
      rwa [headI_append_of_ne_nil rest [n] hrest] at h0
    have hpn : rest.getLast hrest ≠ n := fun hc => hne (by rw [← hc]; exact List.getLast_mem hrest)
    have hqn : rest.headI ≠ n := fun hc => hne (by rw [← hc]; exact headI_mem_of_ne_nil rest hrest)
    obtain ⟨hring, hnull, -⟩ := unlink_ring h n rest hr hrest
    refine ⟨⟨by simp [hp], by simp [hq], ?_, ?_⟩, hring, hnull, ?_, ?_⟩
    · rw [hp]; exact fun hc => hpn (by injection hc)
    · rw [hq]; exact fun hc => hqn (by injection hc)
    · -- the left neighbour points forward at the right neighbour
      cases rest with
      | nil => exact absurd rfl hrest
      | cons q rest' =>
        have h0 := ring_next_getLast (unlink h n) q rest' hring
        simpa [List.getLast_cons] using h0
    · cases rest with
      | nil => exact absurd rfl hrest
      | cons q rest' =>
        have h0 := ring_prev_head (unlink h n) q rest' hring
        simpa [List.getLast_cons] using h0

theorem C8_unlink_asserts_witness :
    (¬unlinkAsserts exRing3 5 ∧ ¬unlinkAsserts exRing3 7) ∧
      (unlinkAsserts exRing3 1 ∧
        isRing (unlink exRing3 1) [2, 0] ∧
        (unlink exRing3 1) 1 = ⟨none, none⟩ ∧
        ((unlink exRing3 1) ([2, 0].getLast (by decide))).next = some ([2, 0].headI) ∧
        ((unlink exRing3 1) ([2, 0].headI)).prev = some ([2, 0].getLast (by decide))) :=
  ⟨⟨C8_unlink_asserts.1 exRing3 5 (Or.inl (by decide)),
      C8_unlink_asserts.1 exRing3 7 (Or.inl (by decide))⟩,
    C8_unlink_asserts.2 exRing3 1 [2, 0] (by decide) (by decide)⟩

/-- C3: destroying an element that is currently linked (the `list_element`
destructor runs `try_unlink`) removes exactly that element: the ring keeps
the remaining elements in order, the destroyed node becomes unlinked, and no
link field of any node other than the element and its two former neighbours
is modified.  For a list `[A, B, C]`, destroying `B` gives `[A, C]` with
`begin()` at `A`, `A.next = C` and `C.prev = A` — the `u = [A]`, `v = [C]`
instance of this statement. -/
theorem C3_destroy_linked (h : Heap) (fk e : Nat) (u v : List Nat)
    (hr : isRing h (fk :: (u ++ e :: v))) :
    isRing (destroyElement h e) (fk :: (u ++ v)) ∧
      (destroyElement h e) e = ⟨none, none⟩ ∧
      ∀ n, n ≠ e → n ≠ (fk :: u).getLast (List.cons_ne_nil fk u) →
        n ≠ (v ++ [fk]).headI → (destroyElement h e) n = h n := by
  have hrot : isRing h (e :: (v ++ (fk :: u))) := by
    have h0 : isRing h ((fk :: u) ++ (e :: v)) := by
      have hle : (fk :: u) ++ (e :: v) = fk :: (u ++ e :: v) := by simp
      rwa [hle]
    exact isRing_rotate h (fk :: u) e v h0
  have hrest : v ++ (fk :: u) ≠ [] := by simp
  have hp : (h e).prev = some ((v ++ (fk :: u)).getLast hrest) := by
    have h0 := ring_prev_head h e (v ++ (fk :: u)) hrot
    rwa [List.getLast_cons hrest] at h0
  have hde : destroyElement h e = unlink h e := by
    simp [destroyElement, tryUnlink, hp]
  obtain ⟨hring, hnull, hframe⟩ := unlink_ring h e (v ++ (fk :: u)) hrot hrest
  have hgl : (v ++ (fk :: u)).getLast hrest = (fk :: u).getLast (List.cons_ne_nil fk u) :=
    List.getLast_append' v (fk :: u) (List.cons_ne_nil fk u)
  have hhd : (v ++ (fk :: u)).headI = (v ++ [fk]).headI := by
    cases v <;> rfl
  refine ⟨?_, by rw [hde]; exact hnull, ?_⟩
  · rw [hde]
    have h0 := isRing_rotate (unlink h e) v fk u hring
    simpa using h0
  · intro n h1 h2 h3
    rw [hde]
    exact hframe n h1 (by rw [hgl]; exact h2) (by rw [hhd]; exact h3)

theorem C3_destroy_linked_witness :
    isRing (destroyElement exRing4 2) (0 :: ([1] ++ [3])) ∧
      (destroyElement exRing4 2) 2 = ⟨none, none⟩ ∧
      ∀ n, n ≠ 2 → n ≠ ([0, 1] : List Nat).getLast (List.cons_ne_nil 0 [1]) →
        n ≠ ([3, 0] : List Nat).headI → (destroyElement exRing4 2) n = exRing4 n :=
  C3_destroy_linked exRing4 0 2 [1] [3] (by decide)

/-- The all-unlinked heap, and the scenario heap of C5: an empty list with
sentinel `0` into which the elements `1`, `2`, `3` (A, B, C) are pushed back
in order. -/
def emptyHeap : Heap := fun _ => ⟨none, none⟩

def scenarioH : Heap :=
  pushBack (pushBack (pushBack (initList emptyHeap 0) 0 1) 0 2) 0 3

/-- C5: `erase(pos)` unlinks exactly the element at `pos` and returns an
iterator to the position that followed it; and the concrete scenario: after
`push_back` of A, B, C (nodes 1, 2, 3), erasing B returns an iterator that
dereferences to C, `front` is A, `back` is C, the list is not empty, and
after erasing A and C it is empty. -/
theorem C5_erase :
    (∀ (h : Heap) (fk e : Nat) (u v : List Nat), isRing h (fk :: (u ++ e :: v)) →
      (erase h e).2 = some ((v ++ [fk]).headI) ∧
        isRing (erase h e).1 (fk :: (u ++ v)) ∧
        (erase h e).1 e = ⟨none, none⟩ ∧
        ∀ n, n ≠ e → n ≠ (fk :: u).getLast (List.cons_ne_nil fk u) →
          n ≠ (v ++ [fk]).headI → (erase h e).1 n = h n) ∧
    ((erase scenarioH 2).2 = some 3 ∧
      front (erase scenarioH 2).1 0 = some 1 ∧
      back (erase scenarioH 2).1 0 = some 3 ∧
      emptyList (erase scenarioH 2).1 0 = false ∧
      emptyList (erase (erase (erase scenarioH 2).1 1).1 3).1 0 = true) := by
  constructor
  · intro h fk e u v hr
    have hrot : isRing h (e :: (v ++ (fk :: u))) := by
      have h0 : isRing h ((fk :: u) ++ (e :: v)) := by
        have hle : (fk :: u) ++ (e :: v) = fk :: (u ++ e :: v) := by simp
        rwa [hle]
      exact isRing_rotate h (fk :: u) e v h0
    have hrest : v ++ (fk :: u) ≠ [] := by simp
    have hhd : (v ++ (fk :: u)).headI = (v ++ [fk]).headI := by
      cases v <;> rfl
    have hq : (h e).next = some ((v ++ [fk]).headI) := by
      have h0 := ring_next_head h e (v ++ (fk :: u)) hrot
      rwa [headI_append_of_ne_nil _ [e] hrest, hhd] at h0
    obtain ⟨hring, hnull, hframe⟩ := unlink_ring h e (v ++ (fk :: u)) hrot hrest
    have hgl : (v ++ (fk :: u)).getLast hrest = (fk :: u).getLast (List.cons_ne_nil fk u) :=
      List.getLast_append' v (fk :: u) (List.cons_ne_nil fk u)
    refine ⟨hq, ?_, hnull, ?_⟩
    · have h0 := isRing_rotate (unlink h e) v fk u hring
      simpa using h0
    · intro n h1 h2 h3
      exact hframe n h1 (by rw [hgl]; exact h2) (by rw [hhd]; exact h3)
  · exact ⟨by decide, by decide, by decide, by decide, by decide⟩

theorem C5_erase_witness :
    (erase exRing4 2).2 = some (([3] ++ [0] : List Nat).headI) ∧
      isRing (erase exRing4 2).1 (0 :: ([1] ++ [3])) ∧
      (erase exRing4 2).1 2 = ⟨none, none⟩ ∧
      ∀ n, n ≠ 2 → n ≠ ([0, 1] : List Nat).getLast (List.cons_ne_nil 0 [1]) →
        n ≠ ([3, 0] : List Nat).headI → (erase exRing4 2).1 n = exRing4 n :=
  C5_erase.1 exRing4 0 2 [1] [3] (by decide)

/-- C6: `clear()` on a list in any (well-formed) state makes `empty()` true,
and every element previously linked in the ring becomes unlinked, so
`try_unlink` on it afterwards is a no-op (and stays one when repeated, the
heap being unchanged). -/
theorem C6_clear (h : Heap) (fk : Nat) (elems : List Nat) (fuel : Nat)
    (hr : isRing h (fk :: elems)) (hfuel : elems.length ≤ fuel) :
    emptyList (listClear fuel h fk) fk = true ∧
      ∀ e ∈ elems, (listClear fuel h fk) e = ⟨none, none⟩ ∧
        tryUnlink (listClear fuel h fk) e = listClear fuel h fk := by
  obtain ⟨hfk, helems, -⟩ := clear_ring h fk elems fuel hr hfuel
  refine ⟨?_, fun e he => ?_⟩
  · show (((clear fuel h fk) fk).prev == some fk) = true
    rw [hfk]
    simp
  · refine ⟨helems e he, ?_⟩
    have hnull : ((clear fuel h fk) e).prev = none := by rw [helems e he]
    show tryUnlink (clear fuel h fk) e = clear fuel h fk
    simp [tryUnlink, hnull]

theorem C6_clear_witness :
    emptyList (listClear 3 exRing4 0) 0 = true ∧
      ∀ e ∈ ([1, 2, 3] : List Nat), (listClear 3 exRing4 0) e = ⟨none, none⟩ ∧
        tryUnlink (listClear 3 exRing4 0) e = listClear 3 exRing4 0 :=
  C6_clear exRing4 0 [1, 2, 3] 3 (by decide) (by decide)

/-- C4: move-construction from a list with sentinel `src` and elements `xs`
onto a fresh sentinel `dst` leaves `dst`'s ring holding exactly `xs` in the
same order, leaves `src` empty, and changes no node outside the two
sentinels and the moved elements — elements are re-linked in place, never
copied or destroyed, so an iterator (a node address) taken before the move
still dereferences to the same element after it. -/
theorem C4_move_construct (h : Heap) (src dst : Nat) (xs : List Nat)
    (hr : isRing h (src :: xs)) (hdst : dst ∉ src :: xs) :
    isRing (moveConstruct h src dst) (dst :: xs) ∧
      emptyList (moveConstruct h src dst) src = true ∧
      ∀ n, n ∉ src :: xs → n ≠ dst → (moveConstruct h src dst) n = h n := by
  have hds : dst ≠ src := fun hc => hdst (by rw [hc]; exact List.mem_cons_self src xs)
  have hinit_other : ∀ n, n ≠ dst → initList h dst n = h n := by
    intro n hn; simp [initList, hn]
  have hinit_dst : initList h dst dst = ⟨some dst, some dst⟩ := by simp [initList]
  have hYring : isRing (initList h dst) [dst] := by
    refine ⟨by simp, by simp, ?_⟩
    show List.Chain' (adj (initList h dst)) [dst, dst]
    exact List.chain'_pair.mpr ⟨by simp [initList], by simp [initList]⟩
  cases xs with
  | nil =>
    have hnext : (h src).next = some src := by
      have h0 := ring_next_head h src [] hr
      simpa using h0
    have hprev : (h src).prev = some src := by
      have h0 := ring_prev_head h src [] hr
      simpa using h0
    have hred : moveConstruct h src dst = initList h dst := by
      have hs : (initList h dst src).next = some src := by
        rw [hinit_other src (Ne.symm hds)]; exact hnext
      simp [moveConstruct, hs, splice]
    rw [hred]
    refine ⟨hYring, ?_, fun n _ hn => hinit_other n hn⟩
    show ((initList h dst src).prev == some src) = true
    rw [hinit_other src (Ne.symm hds), hprev]
    simp
  | cons x xs' =>
    have hnext : (h src).next = some x := by
      have h0 := ring_next_head h src (x :: xs') hr
      simpa using h0
    have hXh : isRing h ((x :: xs') ++ [src]) := isRing_rotate_one h src (x :: xs') hr
    have hX0 : isRing (initList h dst) ((x :: xs') ++ [src]) := by
      refine isRing_frame (fun n hn => hinit_other n (fun hc => hdst ?_)) hXh
      rw [← hc]
      rcases List.mem_append.mp hn with hm | hm
      · exact List.mem_cons_of_mem _ hm
      · rw [List.mem_singleton.mp hm]; exact List.mem_cons_self src _
    have hdisj : List.Disjoint ((x :: xs') ++ [src]) [dst] := by
      intro n hn hm
      rw [List.mem_singleton.mp hm] at hn
      rcases List.mem_append.mp hn with hm' | hm'
      · exact hdst (List.mem_cons_of_mem _ hm')
      · rw [List.mem_singleton.mp hm'] at hds; exact hds.symm rfl
    obtain ⟨hsrc', hdst', hframe'⟩ :=
      splice_two_ring (initList h dst) dst (x :: xs') [src] [] hX0 hYring hdisj
        (List.cons_ne_nil x xs') (List.cons_ne_nil src [])
    simp only [List.headI] at hsrc' hdst' hframe' 
    have hred : moveConstruct h src dst = splice (initList h dst) dst x src := by
      have hs : (initList h dst src).next = some x := by
        rw [hinit_other src (Ne.symm hds)]; exact hnext
      simp [moveConstruct, hs]
    refine ⟨?_, ?_, ?_⟩
    · rw [hred]; simpa using hdst'
    · have hp : (splice (initList h dst) dst x src src).prev = some src := by
        have h0 := ring_prev_head (splice (initList h dst) dst x src) src [] hsrc'
        simpa using h0
      rw [hred]
      show ((splice (initList h dst) dst x src src).prev == some src) = true
      rw [hp]
      simp
    · intro n hn hndst
      have h1 : n ∉ (x :: xs') ++ [src] := by
        intro hm
        rcases List.mem_append.mp hm with hm' | hm'
        · exact hn (List.mem_cons_of_mem _ hm')
        · exact hn (by rw [List.mem_singleton.mp hm']; exact List.mem_cons_self src _)
      have h2 : n ∉ [dst] := by simp [hndst]
      rw [hred, hframe' n h1 h2]
      exact hinit_other n hndst

theorem C4_move_construct_witness :
    isRing (moveConstruct exRing4 0 9) (9 :: [1, 2, 3]) ∧
      emptyList (moveConstruct exRing4 0 9) 0 = true ∧
      ∀ n, n ∉ (0 :: [1, 2, 3] : List Nat) → n ≠ 9 →
        (moveConstruct exRing4 0 9) n = exRing4 n :=
  C4_move_construct exRing4 0 9 [1, 2, 3] (by decide) (by decide)

/-- C9: move-assignment clears the destination before splicing in the
source: every element previously linked in the destination ends up unlinked
and the destination ring takes over exactly the source's elements; as a
consequence, self-move-assignment (`l = std::move(l)`) leaves the list empty
with all of its former elements unlinked instead of preserving them. -/
theorem C9_move_assign :
    (∀ (h : Heap) (dfk ofk : Nat) (delems selems : List Nat) (fuel : Nat),
      isRing h (dfk :: delems) → isRing h (ofk :: selems) →
      List.Disjoint (dfk :: delems) (ofk :: selems) → delems.length ≤ fuel →
      (∀ e ∈ delems, (moveAssign fuel h dfk ofk) e = ⟨none, none⟩) ∧
        isRing (moveAssign fuel h dfk ofk) (dfk :: selems)) ∧
    (∀ (h : Heap) (fk : Nat) (elems : List Nat) (fuel : Nat),
      isRing h (fk :: elems) → elems.length ≤ fuel →
      emptyList (moveAssign fuel h fk fk) fk = true ∧
        ∀ e ∈ elems, (moveAssign fuel h fk fk) e = ⟨none, none⟩) := by
  constructor
  · intro h dfk ofk delems selems fuel hrd hro hdisj hfuel
    obtain ⟨hdfk, hdel, hframe1⟩ := clear_ring h dfk delems fuel hrd hfuel
    have hofk_ne : ofk ≠ dfk := by
      intro hc
      exact hdisj (by rw [← hc]; exact List.mem_cons_self ofk delems)
        (List.mem_cons_self ofk selems)
    have hsrc_frame : ∀ n ∈ ofk :: selems, (clear fuel h dfk) n = h n := by
      intro n hn
      refine hframe1 n (fun hc => hdisj (by rw [hc]; exact List.mem_cons_self dfk delems) hn)
        (fun hm => hdisj (List.mem_cons_of_mem _ hm) hn)
    have hro1 : isRing (clear fuel h dfk) (ofk :: selems) := isRing_frame hsrc_frame hro
    have hYring : isRing (clear fuel h dfk) [dfk] := by
      refine ⟨by simp, by simp, ?_⟩
      show List.Chain' (adj (clear fuel h dfk)) [dfk, dfk]
      exact List.chain'_pair.mpr ⟨by rw [hdfk], by rw [hdfk]⟩
    cases selems with
    | nil =>
      have hnext : ((clear fuel h dfk) ofk).next = some ofk := by
        rw [hsrc_frame ofk (by simp)]
        have h0 := ring_next_head h ofk [] hro
        simpa using h0
      have hred : moveAssign fuel h dfk ofk = clear fuel h dfk := by
        simp [moveAssign, hnext, splice]
      rw [hred]
      exact ⟨hdel, by simpa using hYring⟩
    | cons x selems' =>
      have hnext : ((clear fuel h dfk) ofk).next = some x := by
        rw [hsrc_frame ofk (by simp)]
        have h0 := ring_next_head h ofk (x :: selems') hro
        simpa using h0
      have hX1 : isRing (clear fuel h dfk) ((x :: selems') ++ [ofk]) :=
        isRing_rotate_one _ ofk (x :: selems') hro1
      have hdisj1 : List.Disjoint ((x :: selems') ++ [ofk]) [dfk] := by
        intro n hn hm
        rw [List.mem_singleton.mp hm] at hn
        rcases List.mem_append.mp hn with hm' | hm'
        · exact hdisj (List.mem_cons_self dfk delems) (List.mem_cons_of_mem _ hm')
        · rw [List.mem_singleton.mp hm'] at hofk_ne; exact hofk_ne rfl
      obtain ⟨hsrc', hdst', hframe'⟩ :=
        splice_two_ring (clear fuel h dfk) dfk (x :: selems') [ofk] [] hX1 hYring hdisj1
          (List.cons_ne_nil x selems') (List.cons_ne_nil ofk [])
      simp only [List.headI] at hsrc' hdst' hframe' 
      have hred : moveAssign fuel h dfk ofk =
          splice (clear fuel h dfk) dfk x ofk := by
        simp [moveAssign, hnext]
      constructor
      · intro e he
        have h1 : e ∉ (x :: selems') ++ [ofk] := by
          intro hm
          rcases List.mem_append.mp hm with hm' | hm'
          · exact hdisj (List.mem_cons_of_mem _ he) (List.mem_cons_of_mem _ hm')
          · rw [List.mem_singleton.mp hm'] at he
            exact hdisj (List.mem_cons_of_mem _ he) (List.mem_cons_self ofk _)
        have h2 : e ∉ [dfk] := by
          intro hm
          obtain ⟨-, hnd, -⟩ := id hrd
          exact (List.nodup_cons.mp hnd).1 (by rw [← List.mem_singleton.mp hm]; exact he)
        rw [hred, hframe' e h1 h2]
        exact hdel e he
      · rw [hred]; simpa using hdst'
  · intro h fk elems fuel hr hfuel
    obtain ⟨hfk, helems, -⟩ := clear_ring h fk elems fuel hr hfuel
    have hred : moveAssign fuel h fk fk = clear fuel h fk := by
      have hnext : ((clear fuel h fk) fk).next = some fk := by rw [hfk]
      simp [moveAssign, hnext, splice]
    rw [hred]
    constructor
    · show (((clear fuel h fk) fk).prev == some fk) = true
      rw [hfk]
      simp
    · exact helems

theorem C9_move_assign_witness :
    ((∀ e ∈ ([1, 2, 3] : List Nat), (moveAssign 3 exRing4 0 7) e = ⟨none, none⟩) ∧
        isRing (moveAssign 3 exRing4 0 7) (0 :: [])) ∧
      (emptyList (moveAssign 3 exRing4 0 0) 0 = true ∧
        ∀ e ∈ ([1, 2, 3] : List Nat), (moveAssign 3 exRing4 0 0) e = ⟨none, none⟩) :=
  ⟨C9_move_assign.1 exRing4 0 7 [1, 2, 3] [] 3 (by decide) (by decide)
      (by intro a ha hb; simp at ha hb; omega) (by decide),
    C9_move_assign.2 exRing4 0 [1, 2, 3] 3 (by decide) (by decide)⟩

/-- C1, counterexample to the claim as stated: take the single list with
sentinel `0` and elements `u = 1`, `v = 2` (ring `[0, 1, 2]`), and splice
the range `[first, last) = [u, v)` (just the node `1`) to before `pos = v`.
`pos` is in the same list and not in the half-open range, so the claim
demands the same result as erase-plus-insert — which correctly restores the
original ring — but `splice` leaves node `1` with `prev = some 1`: the two
programs produce different heaps and `splice` destroys the ring. -/
theorem C1_counterexample :
    isRing exRing3 [0, 1, 2] ∧
      isRing (eraseInsertEach exRing3 2 [1]) [0, 1, 2] ∧
      ¬isRing (splice exRing3 2 1 2) [0, 1, 2] ∧
      splice exRing3 2 1 2 ≠ eraseInsertEach exRing3 2 [1] := by
  refine ⟨by decide, by decide, by decide, ?_⟩
  intro hc
  have h1 : (splice exRing3 2 1 2) 1 = (eraseInsertEach exRing3 2 [1]) 1 := by rw [hc]
  exact absurd h1 (by decide)

/-- C1 (amended): `splice(pos, first, last)` produces exactly the heap of
erasing each node of `[first, last)` in order and inserting it before `pos`
— hence identical element sequences in both lists — in each of the cases:
an empty range (`first = last`) is a no-op on any heap; a non-empty range
moved between two disjoint rings, for any `pos`; and a non-empty range moved
within one ring provided `pos` is strictly outside the closed range
`[first, last]` — the amendment: for a same-list splice the destination may
not be `last` either, since `pos = last` corrupts the ring
(`C1_counterexample`). -/
theorem C1_splice_refines_erase_insert :
    (∀ (h : Heap) (pos fl : Nat),
      splice h pos fl fl = h ∧ eraseInsertEach h pos [] = h) ∧
    (∀ (h : Heap) (pos : Nat) (seg D C : List Nat),
      isRing h (seg ++ D) → isRing h (pos :: C) →
      List.Disjoint (seg ++ D) (pos :: C) → seg ≠ [] → D ≠ [] →
      splice h pos seg.headI D.headI = eraseInsertEach h pos seg ∧
        isRing (splice h pos seg.headI D.headI) D ∧
        isRing (splice h pos seg.headI D.headI) (pos :: (C ++ seg))) ∧
    (∀ (h : Heap) (pos : Nat) (U seg V : List Nat),
      isRing h (pos :: (U ++ seg ++ V)) → seg ≠ [] → V ≠ [] →
      splice h pos seg.headI V.headI = eraseInsertEach h pos seg ∧
        isRing (splice h pos seg.headI V.headI) (pos :: (U ++ V ++ seg))) := by
  refine ⟨fun h pos fl => ⟨by simp [splice], rfl⟩, ?_, ?_⟩
  · intro h pos seg D C hX hY hdisj hseg hD
    obtain ⟨hs1, hs2, hs3⟩ := splice_two_ring h pos seg D C hX hY hdisj hseg hD
    obtain ⟨hf1, hf2, hf3⟩ := eraseInsertEach_two_ring pos seg h C D hX hY hdisj hD
    refine ⟨?_, hs1, hs2⟩
    refine heap_ext_of_rings _ _ D (pos :: (C ++ seg)) hs1 hf1 hs2 hf2 ?_
    intro n hnD hnY
    have hn1 : n ∉ seg ++ D := by
      intro hm
      rcases List.mem_append.mp hm with hm' | hm'
      · exact hnY (List.mem_cons_of_mem _ (List.mem_append_right C hm'))
      · exact hnD hm'
    have hn2 : n ∉ pos :: C := by
      intro hm
      rcases List.mem_cons.mp hm with hm' | hm'
      · exact hnY (by rw [hm']; exact List.mem_cons_self pos _)
      · exact hnY (List.mem_cons_of_mem _ (List.mem_append_left _ hm'))
    rw [hs3 n hn1 hn2, hf3 n hn1 hn2]
  · intro h pos U seg V hr hseg hV
    obtain ⟨hs1, hs2⟩ := splice_same_ring h pos U seg V hr hseg hV
    obtain ⟨hf1, hf2⟩ := eraseInsertEach_same_ring pos seg h U V hr hV
    refine ⟨?_, hs1⟩
    refine heap_ext_of_rings _ _ (pos :: (U ++ V ++ seg)) (pos :: (U ++ V ++ seg))
      hs1 hf1 hs1 hf1 ?_
    intro n hn hdup
    have hn1 : n ∉ pos :: (U ++ seg ++ V) := by
      intro hm
      refine hn ?_
      rcases List.mem_cons.mp hm with hm' | hm'
      · rw [hm']; exact List.mem_cons_self pos _
      · refine List.mem_cons_of_mem _ ?_
        rcases List.mem_append.mp hm' with hm2 | hm2
        · rcases List.mem_append.mp hm2 with hm3 | hm3
          · exact List.mem_append_left _ (List.mem_append_left _ hm3)
          · exact List.mem_append_right _ hm3
        · exact List.mem_append_left _ (List.mem_append_right U hm2)
    rw [hs2 n hn1, hf2 n hn1]

theorem C1_splice_refines_erase_insert_witness :
    (splice exRing3 5 9 9 = exRing3 ∧ eraseInsertEach exRing3 5 [] = exRing3) ∧
      (splice exRing4 7 1 3 = eraseInsertEach exRing4 7 [1, 2] ∧
        isRing (splice exRing4 7 1 3) [3, 0] ∧
        isRing (splice exRing4 7 1 3) (7 :: ([] ++ [1, 2]))) ∧
      (splice exRing4 0 1 2 = eraseInsertEach exRing4 0 [1] ∧
        isRing (splice exRing4 0 1 2) (0 :: ([] ++ [2, 3] ++ [1]))) :=
  ⟨C1_splice_refines_erase_insert.1 exRing3 5 9,
    C1_splice_refines_erase_insert.2.1 exRing4 7 [1, 2] [3, 0] [] (by decide) (by decide)
      (by intro a ha hb; simp at ha hb; omega) (by decide) (by decide),
    C1_splice_refines_erase_insert.2.2 exRing4 0 [] [1] [2, 3] (by decide) (by decide)
      (by decide)⟩

/-! ### Ring membership gives local consistency -/

theorem ring_mem_adj_next (h : Heap) (xs : List Nat) (a : Nat)
    (hr : isRing h xs) (ha : a ∈ xs) : ∃ b ∈ xs, adj h a b := by
  obtain ⟨u, v, rfl⟩ := List.append_of_mem ha
  have hrot : isRing h (a :: (v ++ u)) := by simpa using isRing_rotate h u a v hr
  cases hvu : v ++ u with
  | nil =>
    rw [hvu] at hrot
    refine ⟨a, by simp, ?_, ?_⟩
    · have h0 := ring_next_head h a [] hrot
      simpa using h0
    · have h0 := ring_prev_head h a [] hrot
      simpa using h0
  | cons w ws =>
    rw [hvu] at hrot
    have hwmem : w ∈ v ++ u := by rw [hvu]; exact List.mem_cons_self w ws
    refine ⟨w, ?_, ?_, ?_⟩
    · rcases List.mem_append.mp hwmem with hm | hm
      · exact List.mem_append_right u (List.mem_cons_of_mem a hm)
      · exact List.mem_append_left _ hm
    · have h0 := ring_next_head h a (w :: ws) hrot
      simpa using h0
    · have h0 := ring_prev_head h w (ws ++ [a]) (by simpa using isRing_rotate_one h a (w :: ws) hrot)
      rwa [getLast_cons_append w ws [a] (by simp), List.getLast_singleton] at h0

theorem ring_mem_adj_prev (h : Heap) (xs : List Nat) (a : Nat)
    (hr : isRing h xs) (ha : a ∈ xs) : ∃ b ∈ xs, adj h b a := by
  obtain ⟨u, v, rfl⟩ := List.append_of_mem ha
  have hrot : isRing h (a :: (v ++ u)) := by simpa using isRing_rotate h u a v hr
  refine ⟨(a :: (v ++ u)).getLast (List.cons_ne_nil _ _), ?_, ?_, ?_⟩
  · have hmem := List.getLast_mem (List.cons_ne_nil a (v ++ u))
    rcases List.mem_cons.mp hmem with hm | hm
    · rw [hm]; exact List.mem_append_right u (List.mem_cons_self a v)
    · rcases List.mem_append.mp hm with hm' | hm'
      · exact List.mem_append_right u (List.mem_cons_of_mem a hm')
      · exact List.mem_append_left _ hm'
  · exact ring_next_getLast h a (v ++ u) hrot
  · exact ring_prev_head h a (v ++ u) hrot

theorem nodeOk_of_ring (h : Heap) (xs : List Nat) (a : Nat)
    (hr : isRing h xs) (ha : a ∈ xs) : nodeOk h a := by
  obtain ⟨b, -, hab⟩ := ring_mem_adj_next h xs a hr ha
  obtain ⟨c, -, hca⟩ := ring_mem_adj_prev h xs a hr ha
  exact Or.inr ⟨c, b, hca.2, hab.1, hca.1, hab.2⟩

/-- Links cannot point from outside a ring at a ring node: the ring is
closed under `next`/`prev` and under their inverses in a consistent heap. -/
theorem ring_closed_next (h : Heap) (xs : List Nat) (a b : Nat)
    (hr : isRing h xs) (ha : a ∈ xs) (hab : (h a).next = some b) : b ∈ xs := by
  obtain ⟨c, hc, hadj⟩ := ring_mem_adj_next h xs a hr ha
  have hbc : b = c := by
    rw [hadj.1] at hab
    injection hab with hv
    exact hv.symm
  rw [hbc]; exact hc

theorem ring_closed_prev (h : Heap) (xs : List Nat) (a b : Nat)
    (hr : isRing h xs) (ha : a ∈ xs) (hab : (h a).prev = some b) : b ∈ xs := by
  obtain ⟨c, hc, hadj⟩ := ring_mem_adj_prev h xs a hr ha
  have hbc : b = c := by
    rw [hadj.2] at hab
    injection hab with hv
    exact hv.symm
  rw [hbc]; exact hc

/-! ### Preservation of the two-state invariant -/

theorem consistent_unlink (h : Heap) (n p q : Nat) (hC : Consistent h)
    (hp : (h n).prev = some p) (hq : (h n).next = some q)
    (hpn : p ≠ n) (hqn : q ≠ n) : Consistent (unlink h n) := by
  have hfacts : (h p).next = some n ∧ (h q).prev = some n := by
    rcases hC n with ⟨h1, -⟩ | ⟨p', q', hp', hq', h1, h2⟩
    · rw [h1] at hp; exact absurd hp (by simp)
    · rw [hp'] at hp; rw [hq'] at hq
      injection hp with hpv; injection hq with hqv
      rw [← hpv, ← hqv]
      exact ⟨h1, h2⟩
  obtain ⟨hpnext, hqprev⟩ := hfacts
  have heq := unlink_eq h n p q hp hq hpn hqn
  intro m
  by_cases hmn : m = n
  · subst hmn; left; constructor <;> simp [heq]
  · rcases hC m with ⟨hm1, hm2⟩ | ⟨mp, mq, hmp, hmq, hmp2, hmq2⟩
    · -- m was unlinked; p and q are linked, so m is neither
      have hmp' : m ≠ p := by
        intro hc; rw [hc, hpnext] at hm2; exact absurd hm2 (by simp)
      have hmq' : m ≠ q := by
        intro hc; rw [hc, hqprev] at hm1; exact absurd hm1 (by simp)
      left
      constructor
      · simp [heq, hmn, hmq', hm1]
      · simp [heq, hmn, hmp', hm2]
    · right
      by_cases hmq_ : m = q
      · by_cases hmp_ : m = p
        · -- p = q = m: the two-node ring collapses to a self-ring at m
          refine ⟨m, m, ?_, ?_, ?_, ?_⟩ <;>
            simp [heq, hmn, ← hmq_, ← hmp_]
        · -- m = q ≠ p
          subst hmq_
          have hmqn : mq ≠ n := by
            intro hc; rw [hc, hp] at hmq2
            exact hmp_ (by injection hmq2 with hv; exact hv.symm)
          have hmqq : mq ≠ m := by
            intro hc; rw [hc, hqprev] at hmq2
            exact hqn (by injection hmq2 with hv; exact hv.symm)
          refine ⟨p, mq, ?_, ?_, ?_, ?_⟩
          · simp [heq, hmn]
          · simp [heq, hmn, hmp_, hmq]
          · simp [heq, hpn]
          · simp [heq, hmqn, hmqq, hmq2]
      · by_cases hmp_ : m = p
        · -- m = p ≠ q
          subst hmp_
          have hmpn : mp ≠ n := by
            intro hc; rw [hc, hq] at hmp2
            exact hmq_ (by injection hmp2 with hv; exact hv.symm)
          have hmpp : mp ≠ m := by
            intro hc; rw [hc, hpnext] at hmp2
            exact hpn (by injection hmp2 with hv; exact hv.symm)
          refine ⟨mp, q, ?_, ?_, ?_, ?_⟩
          · simp [heq, hmn, hmq_, hmp]
          · simp [heq, hmn]
          · simp [heq, hmpn, hmpp, hmp2]
          · simp [heq, hqn]
        · -- m outside {n, p, q}
          have hmpn : mp ≠ n := by
            intro hc; rw [hc, hq] at hmp2
            exact hmq_ (by injection hmp2 with hv; exact hv.symm)
          have hmpp : mp ≠ p := by
            intro hc; rw [hc, hpnext] at hmp2
            exact hmn (by injection hmp2 with hv; exact hv.symm)
          have hmqn : mq ≠ n := by
            intro hc; rw [hc, hp] at hmq2
            exact hmp_ (by injection hmq2 with hv; exact hv.symm)
          have hmqq : mq ≠ q := by
            intro hc; rw [hc, hqprev] at hmq2
            exact hmn (by injection hmq2 with hv; exact hv.symm)
          refine ⟨mp, mq, ?_, ?_, ?_, ?_⟩
          · simp [heq, hmn, hmq_, hmp]
          · simp [heq, hmn, hmp_, hmq]
          · simp [heq, hmpn, hmpp, hmp2]
          · simp [heq, hmqn, hmqq, hmq2]

theorem consistent_tryUnlink (h : Heap) (n : Nat) (hC : Consistent h)
    (hself : (h n).prev ≠ some n) : Consistent (tryUnlink h n) := by
  cases hcase : (h n).prev with
  | none =>
    have hred : tryUnlink h n = h := by simp [tryUnlink, hcase]
    rwa [hred]
  | some p =>
    have hred : tryUnlink h n = unlink h n := by simp [tryUnlink, hcase]
    rw [hred]
    have hpn : p ≠ n := by
      intro hc; rw [hc] at hcase; exact hself hcase
    rcases hC n with ⟨h1, -⟩ | ⟨p', q', hp', hq', h1, h2⟩
    · rw [h1] at hcase; exact absurd hcase (by simp)
    · have hqn : q' ≠ n := by
        intro hc; rw [hc] at h2; exact hself h2
      exact consistent_unlink h n p q' hC hcase hq' hpn hqn

theorem consistent_insert (h : Heap) (self obj p : Nat) (hC : Consistent h)
    (hop : (h obj).prev = none) (hon : (h obj).next = none)
    (hp : (h self).prev = some p) (hos : obj ≠ self) :
    Consistent (insert h self obj) := by
  have hfacts : (h p).next = some self ∧
      ∃ q, (h self).next = some q ∧ (h q).prev = some self := by
    rcases hC self with ⟨h1, -⟩ | ⟨p', q', hp', hq', h1, h2⟩
    · rw [h1] at hp; exact absurd hp (by simp)
    · rw [hp'] at hp; injection hp with hpv; rw [← hpv]
      exact ⟨h1, q', hq', h2⟩
  obtain ⟨hps, q, hsq, hqs⟩ := hfacts
  have hobp : obj ≠ p := by
    intro hc; rw [hc] at hon; rw [hon] at hps; exact absurd hps (by simp)
  have heq := insert_eq h self obj p hp hos hobp
  intro m
  by_cases hmo : m = obj
  · subst hmo
    right
    refine ⟨p, self, ?_, ?_, ?_, ?_⟩
    · simp [heq]
    · simp [heq]
    · simp [heq, Ne.symm hobp]
    · simp [heq, Ne.symm hos]
  · by_cases hms : m = self
    · right
      by_cases hsp : m = p
      · refine ⟨obj, obj, ?_, ?_, ?_, ?_⟩
        · simp [heq, hms, Ne.symm hos]
        · simp [heq, hsp, Ne.symm hobp]
        · simp [heq, hms]
        · simp [heq, hsp]
      · refine ⟨obj, q, ?_, ?_, ?_, ?_⟩
        · simp [heq, hms, Ne.symm hos]
        · rw [hms] at hsp ⊢
          simp [heq, Ne.symm hos, hsp, hsq]
        · simp [heq, hms]
        · have hqobj : q ≠ obj := by
            intro hc; rw [hc, hop] at hqs; exact absurd hqs (by simp)
          have hqself : q ≠ self := by
            intro hc; rw [hc, hp] at hqs
            injection hqs with hv
            rw [hms] at hsp
            exact hsp hv.symm
          rw [hms]
          simp [heq, hqobj, hqself, hqs]
    · by_cases hmp : m = p
      · right
        have hmnext : (h m).next = some self := by rw [hmp]; exact hps
        rcases hC m with ⟨-, h2⟩ | ⟨mp', mq', hmp', hmq', hmp2, hmq2⟩
        · rw [h2] at hmnext; exact absurd hmnext (by simp)
        · refine ⟨mp', obj, ?_, ?_, ?_, ?_⟩
          · simp [heq, hmo, hms, hmp']
          · simp [heq, hmp, Ne.symm hobp]
          · have hmpobj : mp' ≠ obj := by
              intro hc; rw [hc, hon] at hmp2; exact absurd hmp2 (by simp)
            have hmpp : mp' ≠ p := by
              intro hc; rw [hc, hps] at hmp2
              exact hms (by injection hmp2 with hv; exact hv.symm)
            simp [heq, hmpobj, hmpp, hmp2]
          · simp [heq, hmp]
      · rcases hC m with ⟨h1, h2⟩ | ⟨mp, mq, hmp', hmq', hmp2, hmq2⟩
        · left
          constructor
          · simp [heq, hmo, hms, h1]
          · simp [heq, hmo, hmp, h2]
        · right
          have hmpobj : mp ≠ obj := by
            intro hc; rw [hc, hon] at hmp2; exact absurd hmp2 (by simp)
          have hmpp : mp ≠ p := by
            intro hc; rw [hc, hps] at hmp2
            exact hms (by injection hmp2 with hv; exact hv.symm)
          have hmqobj : mq ≠ obj := by
            intro hc; rw [hc, hop] at hmq2; exact absurd hmq2 (by simp)
          have hmqself : mq ≠ self := by
            intro hc; rw [hc, hp] at hmq2
            exact hmp (by injection hmq2 with hv; exact hv.symm)
          refine ⟨mp, mq, ?_, ?_, ?_, ?_⟩
          · simp [heq, hmo, hms, hmp']
          · simp [heq, hmo, hmp, hmq']
          · simp [heq, hmpobj, hmpp, hmp2]
          · simp [heq, hmqobj, hmqself, hmq2]

theorem consistent_clear (h : Heap) (self : Nat) (elems : List Nat) (fuel : Nat)
    (hC : Consistent h) (hr : isRing h (self :: elems)) (hfuel : elems.length ≤ fuel) :
    Consistent (clear fuel h self) := by
  obtain ⟨hself, helems, hframe⟩ := clear_ring h self elems fuel hr hfuel
  intro m
  by_cases hms : m = self
  · right
    refine ⟨self, self, ?_, ?_, ?_, ?_⟩ <;> simp [hms, hself]
  · by_cases hme : m ∈ elems
    · left
      constructor <;> simp [helems m hme]
    · have hmout : (clear fuel h self) m = h m := hframe m hms hme
      rcases hC m with ⟨h1, h2⟩ | ⟨mp, mq, hmp', hmq', hmp2, hmq2⟩
      · left; rw [hmout]; exact ⟨h1, h2⟩
      · right
        have hmring : m ∉ self :: elems := by simp [hms, hme]
        have hmpout : mp ∉ self :: elems :=
          fun hmem => hmring (ring_closed_next h (self :: elems) mp m hr hmem hmp2)
        have hmqout : mq ∉ self :: elems :=
          fun hmem => hmring (ring_closed_prev h (self :: elems) mq m hr hmem hmq2)
        refine ⟨mp, mq, ?_, ?_, ?_, ?_⟩
        · rw [hmout]; exact hmp'
        · rw [hmout]; exact hmq'
        · rw [hframe mp (fun hc => hmpout (by rw [hc]; exact List.mem_cons_self _ _))
            (fun hm2 => hmpout (List.mem_cons_of_mem _ hm2))]
          exact hmp2
        · rw [hframe mq (fun hc => hmqout (by rw [hc]; exact List.mem_cons_self _ _))
            (fun hm2 => hmqout (List.mem_cons_of_mem _ hm2))]
          exact hmq2

theorem consistent_splice_two (h : Heap) (pos : Nat) (seg D C : List Nat)
    (hC : Consistent h)
    (hX : isRing h (seg ++ D)) (hY : isRing h (pos :: C))
    (hdisj : List.Disjoint (seg ++ D) (pos :: C)) (hseg : seg ≠ []) (hD : D ≠ []) :
    Consistent (splice h pos seg.headI D.headI) := by
  obtain ⟨hr1, hr2, hframe⟩ := splice_two_ring h pos seg D C hX hY hdisj hseg hD
  intro m
  by_cases hmD : m ∈ D
  · exact nodeOk_of_ring _ D m hr1 hmD
  · by_cases hmY : m ∈ pos :: (C ++ seg)
    · exact nodeOk_of_ring _ _ m hr2 hmY
    · have hm1 : m ∉ seg ++ D := by
        intro hmem
        rcases List.mem_append.mp hmem with hm' | hm'
        · exact hmY (List.mem_cons_of_mem _ (List.mem_append_right C hm'))
        · exact hmD hm'
      have hm2 : m ∉ pos :: C := by
        intro hmem
        rcases List.mem_cons.mp hmem with hm' | hm'
        · exact hmY (by rw [hm']; exact List.mem_cons_self _ _)
        · exact hmY (List.mem_cons_of_mem _ (List.mem_append_left _ hm'))
      have hmout := hframe m hm1 hm2
      rcases hC m with ⟨h1, h2⟩ | ⟨mp, mq, hmp', hmq', hmp2, hmq2⟩
      · left; rw [hmout]; exact ⟨h1, h2⟩
      · right
        have hmpX : mp ∉ seg ++ D :=
          fun hmem => hm1 (ring_closed_next h (seg ++ D) mp m hX hmem hmp2)
        have hmpY : mp ∉ pos :: C :=
          fun hmem => hm2 (ring_closed_next h (pos :: C) mp m hY hmem hmp2)
        have hmqX : mq ∉ seg ++ D :=
          fun hmem => hm1 (ring_closed_prev h (seg ++ D) mq m hX hmem hmq2)
        have hmqY : mq ∉ pos :: C :=
          fun hmem => hm2 (ring_closed_prev h (pos :: C) mq m hY hmem hmq2)
        refine ⟨mp, mq, ?_, ?_, ?_, ?_⟩
        · rw [hmout]; exact hmp'
        · rw [hmout]; exact hmq'
        · rw [hframe mp hmpX hmpY]; exact hmp2
        · rw [hframe mq hmqX hmqY]; exact hmq2

theorem consistent_splice_same (h : Heap) (pos : Nat) (U seg V : List Nat)
    (hC : Consistent h) (hr : isRing h (pos :: (U ++ seg ++ V)))
    (hseg : seg ≠ []) (hV : V ≠ []) :
    Consistent (splice h pos seg.headI V.headI) := by
  obtain ⟨hr1, hframe⟩ := splice_same_ring h pos U seg V hr hseg hV
  intro m
  by_cases hmR : m ∈ pos :: (U ++ V ++ seg)
  · exact nodeOk_of_ring _ _ m hr1 hmR
  · have hm1 : m ∉ pos :: (U ++ seg ++ V) := by
      intro hmem
      refine hmR ?_
      rcases List.mem_cons.mp hmem with hm' | hm'
      · rw [hm']; exact List.mem_cons_self _ _
      · refine List.mem_cons_of_mem _ ?_
        rcases List.mem_append.mp hm' with hm2 | hm2
        · rcases List.mem_append.mp hm2 with hm3 | hm3
          · exact List.mem_append_left _ (List.mem_append_left _ hm3)
          · exact List.mem_append_right _ hm3
        · exact List.mem_append_left _ (List.mem_append_right U hm2)
    have hmout := hframe m hm1
    rcases hC m with ⟨h1, h2⟩ | ⟨mp, mq, hmp', hmq', hmp2, hmq2⟩
    · left; rw [hmout]; exact ⟨h1, h2⟩
    · right
      have hmpR : mp ∉ pos :: (U ++ seg ++ V) :=
        fun hmem => hm1 (ring_closed_next h _ mp m hr hmem hmp2)
      have hmqR : mq ∉ pos :: (U ++ seg ++ V) :=
        fun hmem => hm1 (ring_closed_prev h _ mq m hr hmem hmq2)
      refine ⟨mp, mq, ?_, ?_, ?_, ?_⟩
      · rw [hmout]; exact hmp'
      · rw [hmout]; exact hmq'
      · rw [hframe mp hmpR]; exact hmp2
      · rw [hframe mq hmqR]; exact hmq2

/-- C2: a node is always in one of exactly two states — unlinked with both
pointers null, or linked with both pointers non-null and its neighbours
pointing back at it (`nodeOk`, which makes the one-null-pointer state
impossible) — and each primitive ring operation, invoked under its
precondition, preserves the invariant for every node of the heap: `unlink`
(on a linked, non-self-referential node), `try_unlink` (on any
non-self-referential node), `insert` (of an unlinked node below a linked
one), `clear` (on the sentinel of a ring) and `splice` (with its range and
destination preconditions, for distinct rings and within one ring).  Every
list operation is a composition of these primitives: push/pop/erase are
`insert`/`unlink` on ring nodes, and the move operations are `clear` plus a
full-range `splice`. -/
theorem C2_two_state_invariant :
    (∀ (h : Heap) (n p q : Nat), Consistent h →
      (h n).prev = some p → (h n).next = some q → p ≠ n → q ≠ n →
      Consistent (unlink h n)) ∧
    (∀ (h : Heap) (n : Nat), Consistent h → (h n).prev ≠ some n →
      Consistent (tryUnlink h n)) ∧
    (∀ (h : Heap) (self obj p : Nat), Consistent h →
      (h obj).prev = none → (h obj).next = none → (h self).prev = some p →
      obj ≠ self → Consistent (insert h self obj)) ∧
    (∀ (h : Heap) (self : Nat) (elems : List Nat) (fuel : Nat), Consistent h →
      isRing h (self :: elems) → elems.length ≤ fuel →
      Consistent (clear fuel h self)) ∧
    (∀ (h : Heap) (pos : Nat) (seg D C : List Nat), Consistent h →
      isRing h (seg ++ D) → isRing h (pos :: C) →
      List.Disjoint (seg ++ D) (pos :: C) → seg ≠ [] → D ≠ [] →
      Consistent (splice h pos seg.headI D.headI)) ∧
    (∀ (h : Heap) (pos : Nat) (U seg V : List Nat), Consistent h →
      isRing h (pos :: (U ++ seg ++ V)) → seg ≠ [] → V ≠ [] →
      Consistent (splice h pos seg.headI V.headI)) :=
  ⟨fun h n p q hC hp hq hpn hqn => consistent_unlink h n p q hC hp hq hpn hqn,
    fun h n hC hs => consistent_tryUnlink h n hC hs,
    fun h self obj p hC hop hon hp hos => consistent_insert h self obj p hC hop hon hp hos,
    fun h self elems fuel hC hr hf => consistent_clear h self elems fuel hC hr hf,
    fun h pos seg D C hC hX hY hd hs hD =>
      consistent_splice_two h pos seg D C hC hX hY hd hs hD,
    fun h pos U seg V hC hr hs hV => consistent_splice_same h pos U seg V hC hr hs hV⟩

theorem C2_two_state_invariant_witness :
    Consistent (unlink exRing4 2) ∧ Consistent (tryUnlink exRing4 2) ∧
      Consistent (insert exRing4 0 5) ∧ Consistent (clear 3 exRing4 0) ∧
      Consistent (splice exRing4 7 1 3) ∧ Consistent (splice exRing4 0 1 2) := by
  have hC : Consistent exRing4 := by
    intro m
    by_cases h0 : m = 0
    · rw [h0]; right; exact ⟨3, 1, by decide, by decide, by decide, by decide⟩
    by_cases h1 : m = 1
    · rw [h1]; right; exact ⟨0, 2, by decide, by decide, by decide, by decide⟩
    by_cases h2 : m = 2
    · rw [h2]; right; exact ⟨1, 3, by decide, by decide, by decide, by decide⟩
    by_cases h3 : m = 3
    · rw [h3]; right; exact ⟨2, 0, by decide, by decide, by decide, by decide⟩
    by_cases h7 : m = 7
    · rw [h7]; right; exact ⟨7, 7, by decide, by decide, by decide, by decide⟩
    left
    constructor <;> simp [exRing4, h0, h1, h2, h3, h7]
  refine ⟨?_, ?_, ?_, ?_, ?_, ?_⟩
  · exact C2_two_state_invariant.1 exRing4 2 1 3 hC (by decide) (by decide)
      (by decide) (by decide)
  · exact C2_two_state_invariant.2.1 exRing4 2 hC (by decide)
  · exact C2_two_state_invariant.2.2.1 exRing4 0 5 3 hC (by decide) (by decide)
      (by decide) (by decide)
  · exact C2_two_state_invariant.2.2.2.1 exRing4 0 [1, 2, 3] 3 hC (by decide) (by decide)
  · exact C2_two_state_invariant.2.2.2.2.1 exRing4 7 [1, 2] [3, 0] [] hC (by decide)
      (by decide) (by intro a ha hb; simp at ha hb; omega) (by decide) (by decide)
  · exact C2_two_state_invariant.2.2.2.2.2 exRing4 0 [] [1] [2, 3] hC (by decide)
      (by decide) (by decide)

end Intrusive
